import Mathlib

set_option maxRecDepth 100000

/-!
Verification of the rsmath dense-matrix engine (`src/matrix.rs`).

Embedding conventions:

* A Rust `f64` is modelled by `F64`: a canonically normalised dyadic rational
  `m * 2^e` (53-bit mantissa), with operations correctly rounded to nearest,
  ties to even — the IEEE-754 binary64 behaviour on every value arising in the
  claims settled here.  The model has no NaN, infinities or signed zero;
  no settled computation reaches an overflow, underflow, NaN or ±∞ (division
  by zero yields a model-internal value, noted where relevant).  For the one
  claim about NaN/signed-zero equality semantics a dedicated element type
  `FVal` is used.
* Rust `Result<T, &'static str>` becomes `Except Fail T`; a Rust panic
  (out-of-range `Vec` indexing, `unwrap` on an `Err`) is `Fail.abort`, a
  returned error is `Fail.err msg` with the source's message string.
* A matrix is a row-major flat list plus row/column counts, as in the source.
-/

namespace RsMatrix

/-- Outcome of a fallible Rust computation: a returned `Err` message, or a
panic (out-of-range `Vec` indexing, `unwrap` on `Err`), which aborts. -/
inductive Fail where
  | err (msg : String)
  | abort
deriving DecidableEq

instance {ε α : Type} [DecidableEq ε] [DecidableEq α] : DecidableEq (Except ε α) := fun x y =>
  match x, y with
  | .ok a, .ok b => if h : a = b then .isTrue (by rw [h]) else .isFalse (by simp [h])
  | .error a, .error b => if h : a = b then .isTrue (by rw [h]) else .isFalse (by simp [h])
  | .ok _, .error _ => .isFalse (by simp)
  | .error _, .ok _ => .isFalse (by simp)

/-- Rust `Vec` read `v[i]`: panics when `i` is out of bounds. -/
def vecGet {α : Type} (l : List α) (i : Nat) : Except Fail α :=
  if h : i < l.length then .ok (l.get ⟨i, h⟩) else .error .abort

/-- Rust `Vec` write `v[i] = x`: panics when `i` is out of bounds. -/
def vecSet {α : Type} (l : List α) (i : Nat) (v : α) : Except Fail (List α) :=
  if i < l.length then .ok (l.set i v) else .error .abort

/-- Rust `Vec::swap(i, j)`: panics when either index is out of bounds. -/
def vecSwap {α : Type} (l : List α) (i j : Nat) : Except Fail (List α) :=
  if h : i < l.length ∧ j < l.length then
    .ok ((l.set i (l.get ⟨j, h.2⟩)).set j (l.get ⟨i, h.1⟩))
  else .error .abort

/-- Rust `Result::unwrap()`: the value on `Ok`, a panic on `Err`. -/
def unwrapR {α : Type} : Except Fail α → Except Fail α
  | .ok a => .ok a
  | .error _ => .error .abort

/-! ### The binary64 model -/

/-- A binary64 value as a dyadic rational `m * 2^e`, canonically normalised:
either `m = 0 ∧ e = 0`, or `2^52 ≤ |m| < 2^53`. -/
structure F64 where
  m : Int
  e : Int
deriving DecidableEq

namespace F64

/-- Bit length of a natural number.  Fuel-driven structural recursion so that
kernel reduction (hence `decide`) works. -/
def blenAux : Nat → Nat → Nat
  | 0, _ => 0
  | fuel + 1, n => if n = 0 then 0 else blenAux fuel (n / 2) + 1

/-- Bit length: `blen n = ⌊log₂ n⌋ + 1` for `n ≥ 1`, and `blen 0 = 0`. -/
def blen (n : Nat) : Nat := blenAux n n

/-- Pack a rounded magnitude `2^52 ≤ q ≤ 2^53` with a sign and exponent,
renormalising the carry case `q = 2^53`. -/
def mkF (neg : Bool) (q : Nat) (e : Int) : F64 :=
  if q = 2 ^ 53 then ⟨if neg then -(2 ^ 52 : Int) else 2 ^ 52, e + 1⟩
  else ⟨if neg then -(q : Int) else (q : Int), e⟩

/-- Round the dyadic `m * 2^e` to 53 significant bits (to nearest, ties to
even) and normalise. -/
def roundD (m : Int) (e : Int) : F64 :=
  if m = 0 then ⟨0, 0⟩ else
    let n := m.natAbs
    let l := blen n
    if l ≤ 53 then ⟨m * ((2 ^ (53 - l) : Nat) : Int), e - (53 - l)⟩
    else
      let s := l - 53
      let q := n / 2 ^ s
      let r := n % 2 ^ s
      let half := 2 ^ (s - 1)
      let q' := if half < r then q + 1 else if r < half then q
        else if q % 2 = 0 then q else q + 1
      mkF (decide (m < 0)) q' (e + s)

/-- The literal `0.0`. -/
def zero : F64 := ⟨0, 0⟩

/-- An integer-valued double (exact for `|n| < 2^53`). -/
def fromInt (n : Int) : F64 := roundD n 0

/-- IEEE addition: the exact dyadic sum, rounded. -/
def fadd (x y : F64) : F64 :=
  let e := min x.e y.e
  roundD (x.m * ((2 ^ (x.e - e).toNat : Nat) : Int)
    + y.m * ((2 ^ (y.e - e).toNat : Nat) : Int)) e

/-- IEEE negation (exact). -/
def fneg (x : F64) : F64 := ⟨-x.m, x.e⟩

/-- IEEE subtraction: the exact dyadic difference, rounded. -/
def fsub (x y : F64) : F64 := fadd x (fneg y)

/-- IEEE multiplication: the exact product, rounded. -/
def fmul (x y : F64) : F64 := roundD (x.m * y.m) (x.e + y.e)

/-- IEEE division, correctly rounded.  `0 / y = 0`.  Division by zero yields a
model-internal value (IEEE gives ±∞ or NaN); no settled claim depends on it. -/
def fdiv (x y : F64) : F64 :=
  if x.m = 0 then ⟨0, 0⟩ else
  if y.m = 0 then ⟨0, 0⟩ else
    let n := x.m.natAbs * 2 ^ 55
    let d := y.m.natAbs
    let q0 := n / d
    let r0 := n % d
    let l := blen q0
    let s := l - 53
    let q := q0 / 2 ^ s
    let rmid := q0 % 2 ^ s
    let lhs := 2 * rmid * d + 2 * r0
    let rhs := 2 ^ s * d
    let q' := if rhs < lhs then q + 1 else if lhs < rhs then q
      else if q % 2 = 0 then q else q + 1
    mkF (decide (x.m < 0) != decide (y.m < 0)) q' (x.e - y.e - 55 + s)

/-- Rust `f64::abs` (exact). -/
def fabs (x : F64) : F64 := ⟨|x.m|, x.e⟩

/-- The exact rational value of a dyadic. -/
def val (x : F64) : ℚ := (x.m : ℚ) * (2 : ℚ) ^ x.e

/-- IEEE `>`; exact comparison of the dyadic values. -/
def fgt (x y : F64) : Bool :=
  let e := min x.e y.e
  decide (y.m * ((2 ^ (y.e - e).toNat : Nat) : Int)
    < x.m * ((2 ^ (x.e - e).toNat : Nat) : Int))

/-- IEEE `== 0.0` (any representation of value zero). -/
def feqZero (x : F64) : Bool := x.m == 0

theorem val_zero : val zero = 0 := by simp [val, zero]

theorem fabs_val (x : F64) : val (fabs x) = |val x| := by
  simp [val, fabs, abs_mul, abs_of_pos (zpow_pos (by norm_num : (0:ℚ) < 2) x.e)]

theorem feqZero_iff (x : F64) : feqZero x = true ↔ val x = 0 := by
  have h2 : ((2 : ℚ) ^ x.e) ≠ 0 := zpow_ne_zero _ (by norm_num)
  simp [feqZero, val, h2]

theorem scaled_cast (M : F64) (e : Int) (he : e ≤ M.e) :
    ((M.m * ((2 ^ (M.e - e).toNat : Nat) : Int) : Int) : ℚ) * (2:ℚ) ^ e = val M := by
  have : ((M.e - e).toNat : Int) = M.e - e := Int.toNat_of_nonneg (by omega)
  push_cast
  rw [show ((2:ℚ) ^ (M.e - e).toNat = (2:ℚ) ^ (((M.e - e).toNat : Int))) by
    rw [zpow_natCast]]
  rw [this, val, mul_assoc, ← zpow_add₀ (by norm_num : (2:ℚ) ≠ 0)]
  ring_nf

theorem fgt_iff (x y : F64) : fgt x y = true ↔ val y < val x := by
  unfold fgt
  simp only [decide_eq_true_eq]
  rw [show (y.m * ((2 ^ (y.e - min x.e y.e).toNat : Nat) : Int)
        < x.m * ((2 ^ (x.e - min x.e y.e).toNat : Nat) : Int)) ↔
      (((y.m * ((2 ^ (y.e - min x.e y.e).toNat : Nat) : Int) : Int) : ℚ)
        < ((x.m * ((2 ^ (x.e - min x.e y.e).toNat : Nat) : Int) : Int) : ℚ)) from
    (Int.cast_lt (R := ℚ)).symm]
  rw [← mul_lt_mul_right (zpow_pos (by norm_num : (0:ℚ) < 2) (min x.e y.e))]
  rw [scaled_cast y _ (min_le_right _ _), scaled_cast x _ (min_le_left _ _)]

end F64

/-! ### The `Matrix` type and its operations, translated from `src/matrix.rs` -/

/-- `struct Matrix` of `src/matrix.rs`: a flat row-major buffer plus row and
column counts.  Generic in the element type so that the IEEE-equality claim
can instantiate it with a NaN-aware element model; every numeric operation is
stated at `Matrix F64`. -/
structure Matrix (α : Type) where
  data : List α
  rows : Nat
  cols : Nat
deriving DecidableEq

namespace Matrix

/-- `Matrix::index(row, col)`: the checked flat offset. -/
def index {α : Type} (m : Matrix α) (row col : Nat) : Except Fail Nat :=
  if row ≥ m.rows ∨ col ≥ m.cols then .error (.err "Index out of bounds")
  else .ok (row * m.cols + col)

/-- `Matrix::get(row, col)`: checked element read. -/
def get {α : Type} (m : Matrix α) (row col : Nat) : Except Fail α :=
  if row ≥ m.rows ∨ col ≥ m.cols then .error (.err "Index out of bounds")
  else vecGet m.data (row * m.cols + col)

/-- `Matrix::set(row, col, value)`: checked element write. -/
def set {α : Type} (m : Matrix α) (row col : Nat) (value : α) :
    Except Fail (Matrix α) := do
  let i ← m.index row col
  let d ← vecSet m.data i value
  return { m with data := d }

/-- The `Index<(usize, usize)>` impl `m[(r, c)]`: the flat offset is computed
without shape validation, so only the `Vec` bound applies (out of range is a
panic). -/
def ix {α : Type} (m : Matrix α) (p : Nat × Nat) : Except Fail α :=
  vecGet m.data (p.1 * m.cols + p.2)

/-- `Matrix::swap_rows(i, j)` (private helper): swaps two rows entry by
entry, with `unwrap`ped checked offsets and `Vec::swap`. -/
def swap_rows (m : Matrix F64) (i j : Nat) : Except Fail (Matrix F64) :=
  (List.range m.cols).foldlM (fun s k => do
    let index1 ← unwrapR (s.index i k)
    let index2 ← unwrapR (s.index j k)
    let d ← vecSwap s.data index1 index2
    return { s with data := d }) m

/-- `Matrix::new(rows, cols)`: zero-filled matrix; `Err` when a dimension is
zero. -/
def new (rows cols : Nat) : Except Fail (Matrix F64) :=
  if rows = 0 ∨ cols = 0 then .error (.err "Matrix dimensions cannot be zero")
  else .ok ⟨List.replicate (rows * cols) F64.zero, rows, cols⟩

/-- `Matrix::from_data(rows, cols, data)`: takes the buffer as is; `Err` when
the length disagrees with `rows * cols`. -/
def from_data {α : Type} (rows cols : Nat) (data : List α) :
    Except Fail (Matrix α) :=
  if data.length ≠ rows * cols then
    .error (.err "Data length does not match matrix dimensions")
  else .ok ⟨data, rows, cols⟩

/-- `Matrix::identity(size)`: a zero buffer with `1.0` written on the
diagonal, passed to `from_data` (there is no explicit `size == 0` check). -/
def identity (size : Nat) : Except Fail (Matrix F64) := do
  let data ← (List.range size).foldlM (fun d i => vecSet d (i * size + i) (F64.fromInt 1))
    (List.replicate (size * size) F64.zero)
  from_data size size data

/-- `Matrix::add`. -/
def add (self other : Matrix F64) : Except Fail (Matrix F64) :=
  if self.rows ≠ other.rows ∨ self.cols ≠ other.cols then
    .error (.err "Matrix dimensions do not match")
  else do
    let init ← new self.rows self.cols
    (List.range self.rows).foldlM (fun res i =>
      (List.range self.cols).foldlM (fun res j => do
        let idx ← res.index i j
        let a ← self.get i j
        let b ← other.get i j
        let d ← vecSet res.data idx (F64.fadd a b)
        return { res with data := d }) res) init

/-- `Matrix::sub`. -/
def sub (self other : Matrix F64) : Except Fail (Matrix F64) :=
  if self.rows ≠ other.rows ∨ self.cols ≠ other.cols then
    .error (.err "Matrix dimensions do not match")
  else do
    let init ← new self.rows self.cols
    (List.range self.rows).foldlM (fun res i =>
      (List.range self.cols).foldlM (fun res j => do
        let idx ← res.index i j
        let a ← self.get i j
        let b ← other.get i j
        let d ← vecSet res.data idx (F64.fsub a b)
        return { res with data := d }) res) init

/-- `Matrix::mul`: triple-loop contraction. -/
def mul (self other : Matrix F64) : Except Fail (Matrix F64) :=
  if self.cols ≠ other.rows then .error (.err "Matrix dimensions do not match")
  else do
    let init ← new self.rows other.cols
    (List.range self.rows).foldlM (fun res i =>
      (List.range other.cols).foldlM (fun res j => do
        let sum ← (List.range self.cols).foldlM (fun sum k => do
          let a ← self.get i k
          let b ← other.get k j
          return F64.fadd sum (F64.fmul a b)) F64.zero
        let idx ← res.index i j
        let d ← vecSet res.data idx sum
        return { res with data := d }) res) init

/-- `Matrix::transpose`: infallible in the source signature, but built on
`unwrap`s (so a degenerate receiver would panic). -/
def transpose (self : Matrix F64) : Except Fail (Matrix F64) := do
  let init ← unwrapR (new self.cols self.rows)
  (List.range self.rows).foldlM (fun res i =>
    (List.range self.cols).foldlM (fun res j => do
      let idx ← unwrapR (res.index j i)
      let v ← unwrapR (self.get i j)
      let d ← vecSet res.data idx v
      return { res with data := d }) res) init

/-- One step `i` of `Matrix::lu_decomposition`'s outer loop: pivot search over
rows `i..rows`, singularity check, pivot recording, row swap, and the
elimination of rows `i+1..rows`. -/
def luStep (st : Matrix F64 × List Nat) (i : Nat) :
    Except Fail (Matrix F64 × List Nat) := do
  let a := st.1
  let pivots := st.2
  let mp ← (List.range' i (a.rows - i)).foldlM (fun (mp : F64 × Nat) j => do
      let v ← a.ix (j, i)
      let abs_pivot := F64.fabs v
      return if F64.fgt abs_pivot mp.1 then (abs_pivot, j) else mp)
    (F64.zero, 0)
  if F64.feqZero mp.1 then throw (.err "Matrix is singular")
  else do
    let pivots' ← vecSet pivots i mp.2
    let a' ← a.swap_rows i mp.2
    let a'' ← (List.range' (i + 1) (a'.rows - (i + 1))).foldlM (fun a j => do
        let x ← a.ix (j, i)
        let y ← a.ix (i, i)
        let factor := F64.fdiv x y
        let a ← a.set j i factor
        (List.range' (i + 1) (a.cols - (i + 1))).foldlM (fun a k => do
            let u ← a.ix (j, k)
            let w ← a.ix (i, k)
            a.set j k (F64.fsub u (F64.fmul factor w))) a) a'
    return (a'', pivots')

/-- `Matrix::lu_decomposition(mat)`: partial-pivoting factorization of a
clone of `mat` (compact L/U storage), with the pivot trace. -/
def lu_decomposition (mat : Matrix F64) : Except Fail (Matrix F64 × List Nat) :=
  (List.range mat.rows).foldlM luStep (mat, List.replicate mat.rows 0)

/-- `Matrix::back_substitution(&self, pivots, b)`: forward then backward
substitution performed on `x = b`.  Note that the source reads entries of `x`
only — the sole use of `self` is `self.rows` as loop bound. -/
def back_substitution (self : Matrix F64) (pivots : List Nat) (b : Matrix F64) :
    Except Fail (Matrix F64) := do
  let x := b
  let x ← (List.range self.rows).foldlM (fun x i => do
    let pi ← vecGet pivots i
    let sum ← (List.range i).foldlM (fun sum j => do
      let u ← x.ix (pi, j)
      let v ← x.ix (j, i)
      return F64.fadd sum (F64.fmul u v)) F64.zero
    let w ← x.ix (pi, i)
    x.set pi i (F64.fsub w sum)) x
  let x ← (List.range self.rows).reverse.foldlM (fun x i => do
    let pi ← vecGet pivots i
    let sum ← (List.range' (i + 1) (self.rows - (i + 1))).foldlM (fun sum j => do
      let u ← x.ix (pi, j)
      let v ← x.ix (j, i)
      return F64.fadd sum (F64.fmul u v)) F64.zero
    let w ← x.ix (pi, i)
    let d ← x.ix (i, i)
    x.set pi i (F64.fdiv (F64.fsub w sum) d)) x
  return x

/-- `Matrix::inverse`. -/
def inverse (self : Matrix F64) : Except Fail (Matrix F64) :=
  if self.rows ≠ self.cols then .error (.err "Matrix is not square")
  else do
    let lup ← lu_decomposition self
    let idm ← identity self.rows
    lup.1.back_substitution lup.2 idm

/-- `Matrix::determinant`: diagonal product of the factored matrix with one
sign flip per off-position pivot entry. -/
def determinant (self : Matrix F64) : Except Fail F64 :=
  if self.rows ≠ self.cols then .error (.err "Matrix is not square")
  else do
    let lup ← lu_decomposition self
    (List.range self.rows).foldlM (fun det i => do
      let d ← lup.1.ix (i, i)
      let p ← vecGet lup.2 i
      let det := F64.fmul det d
      return if p ≠ i then F64.fmul det (F64.fromInt (-1)) else det)
      (F64.fromInt 1)

/-- `Matrix::solve(&self, b)`: one combined shape check, then decomposition
and substitution on a clone of `b`. -/
def solve (self b : Matrix F64) : Except Fail (Matrix F64) :=
  if self.rows ≠ self.cols ∨ b.rows ≠ self.rows ∨ b.cols ≠ 1 then
    .error (.err "Matrix dimensions do not match")
  else do
    let lup ← lu_decomposition self
    lup.1.back_substitution lup.2 b

/-- The `PartialEq` impl: `false` on any shape mismatch, else an element scan
that stops at the first pair for which the element-level `!=` test holds.
`ne` is the element inequality (for `f64`, IEEE `!=`). -/
def matrix_eq {α : Type} (ne : α → α → Bool) (self other : Matrix α) :
    Except Fail Bool :=
  if self.rows ≠ other.rows ∨ self.cols ≠ other.cols then .ok false
  else
    (List.range self.rows).foldlM (fun acc i =>
      (List.range self.cols).foldlM (fun acc j =>
        if acc then do
          let a ← unwrapR (self.get i j)
          let b ← unwrapR (other.get i j)
          return !(ne a b)
        else return false) acc) true

end Matrix

/-! ### Infrastructure lemmas about the `Except` monad and monadic folds -/

theorem ok_bind {α β : Type} (a : α) (k : α → Except Fail β) :
    (Except.ok a >>= k) = k a := rfl

theorem error_bind {α β : Type} (e : Fail) (k : α → Except Fail β) :
    ((Except.error e : Except Fail α) >>= k) = .error e := rfl

theorem bind_ok_elim {α β : Type} {x : Except Fail α} {k : α → Except Fail β} {r : β}
    (h : (x >>= k) = .ok r) : ∃ a, x = .ok a ∧ k a = .ok r := by
  cases x with
  | ok a => exact ⟨a, rfl, h⟩
  | error e => rw [error_bind] at h; exact absurd h (by simp)

theorem pure_ok {α : Type} {a r : α} (h : (pure a : Except Fail α) = .ok r) : a = r := by
  simpa [pure, Except.pure] using h

/-- A monadic fold whose steps succeed (on states satisfying `P`) computes the
corresponding pure fold and preserves `P`. -/
theorem foldlM_eq_ok_foldl {σ β : Type} (P : σ → Prop) (g : σ → β → Except Fail σ)
    (f : σ → β → σ) :
    ∀ L : List β, (∀ s x, P s → x ∈ L → g s x = .ok (f s x) ∧ P (f s x)) →
      ∀ s, P s → L.foldlM g s = .ok (L.foldl f s) ∧ P (L.foldl f s) := by
  intro L
  induction L with
  | nil => intro _ s hs; exact ⟨rfl, hs⟩
  | cons a l ih =>
    intro h s hs
    obtain ⟨h1, h2⟩ := h s a hs (List.mem_cons_self a l)
    rw [List.foldlM_cons, h1, ok_bind, List.foldl_cons]
    exact ih (fun s x hP hx => h s x hP (List.mem_cons_of_mem a hx)) _ h2

/-- A monadic fold that succeeds preserves any invariant its successful steps
preserve. -/
theorem foldlM_pres {σ β : Type} (P : σ → Prop) (g : σ → β → Except Fail σ) :
    ∀ L : List β, (∀ s x s', P s → x ∈ L → g s x = .ok s' → P s') →
      ∀ s r, P s → L.foldlM g s = .ok r → P r := by
  intro L
  induction L with
  | nil => intro _ s r hs h; rw [List.foldlM_nil] at h; exact (pure_ok h) ▸ hs
  | cons a l ih =>
    intro h s r hs hr
    rw [List.foldlM_cons] at hr
    obtain ⟨s', h1, h2⟩ := bind_ok_elim hr
    exact ih (fun s x s' hP hx => h s x s' hP (List.mem_cons_of_mem a hx)) s' r
      (h s a s' hs (List.mem_cons_self a l) h1) h2

/-- A monadic fold whose steps (on `P`-states) either fail or compute the pure
step: when the fold succeeds, it computed the pure fold. -/
theorem foldlM_ok_imp_foldl {σ β : Type} (P : σ → Prop) (g : σ → β → Except Fail σ)
    (f : σ → β → σ) :
    ∀ L : List β, (∀ s x, P s → x ∈ L →
        (∃ e, g s x = .error e) ∨ (g s x = .ok (f s x) ∧ P (f s x))) →
      ∀ s r, P s → L.foldlM g s = .ok r → r = L.foldl f s ∧ P r := by
  intro L
  induction L with
  | nil =>
    intro _ s r hs h
    rw [List.foldlM_nil] at h
    exact ⟨(pure_ok h).symm, (pure_ok h) ▸ hs⟩
  | cons a l ih =>
    intro h s r hs hr
    rw [List.foldlM_cons] at hr
    obtain ⟨s', h1, h2⟩ := bind_ok_elim hr
    rcases h s a hs (List.mem_cons_self a l) with ⟨e, he⟩ | ⟨hok, hP⟩
    · rw [he] at h1; exact absurd h1 (by simp)
    · rw [h1] at hok
      obtain rfl : f s a = s' := by simpa using hok.symm
      rw [List.foldl_cons]
      exact ih (fun s x hP hx => h s x hP (List.mem_cons_of_mem a hx)) _ r hP h2

/-- Row-major flat offsets of in-shape indices are in a well-sized buffer. -/
theorem flat_lt {i j R C : Nat} (hi : i < R) (hj : j < C) : i * C + j < R * C :=
  calc i * C + j < i * C + C := Nat.add_lt_add_left hj _
    _ = (i + 1) * C := (Nat.succ_mul i C).symm
    _ ≤ R * C := Nat.mul_le_mul_right C (Nat.succ_le_of_lt hi)

theorem vecGet_ok {α : Type} {l : List α} {i : Nat} (h : i < l.length) :
    vecGet l i = .ok (l.get ⟨i, h⟩) := by
  unfold vecGet; rw [dif_pos h]

theorem vecSet_ok {α : Type} {l : List α} {i : Nat} (v : α) (h : i < l.length) :
    vecSet l i v = .ok (l.set i v) := by
  unfold vecSet; rw [if_pos h]

theorem vecSet_len {α : Type} {l d : List α} {i : Nat} {v : α}
    (h : vecSet l i v = .ok d) : d.length = l.length := by
  unfold vecSet at h
  split at h
  · obtain rfl : l.set i v = d := by simpa using h
    exact List.length_set l i v
  · exact absurd h (by simp)

theorem vecSwap_len {α : Type} {l d : List α} {i j : Nat}
    (h : vecSwap l i j = .ok d) : d.length = l.length := by
  unfold vecSwap at h
  split at h
  · obtain rfl : _ = d := by simpa using h
    simp
  · exact absurd h (by simp)

theorem vecGet_len {α : Type} {l : List α} {i : Nat} {v : α}
    (h : vecGet l i = .ok v) : i < l.length := by
  unfold vecGet at h
  split at h
  next hlt => exact hlt
  · exact absurd h (by simp)

/-! ### Shape preservation -/

/-- The §3 length invariant: the flat buffer has exactly `rows * cols`
entries. -/
def sizeOk {α : Type} (m : Matrix α) : Prop := m.data.length = m.rows * m.cols

instance {α : Type} (m : Matrix α) : Decidable (sizeOk m) := by
  unfold sizeOk; infer_instance

namespace Matrix

theorem set_shape {α : Type} {m m' : Matrix α} {r c : Nat} {v : α}
    (h : m.set r c v = .ok m') :
    m'.rows = m.rows ∧ m'.cols = m.cols ∧ m'.data.length = m.data.length := by
  unfold set at h
  obtain ⟨idx, h1, h⟩ := bind_ok_elim h
  obtain ⟨d, h2, h⟩ := bind_ok_elim h
  obtain rfl : { m with data := d } = m' := pure_ok h
  exact ⟨rfl, rfl, vecSet_len h2⟩

theorem set_ok {α : Type} {m : Matrix α} {r c : Nat} (v : α)
    (hr : r < m.rows) (hc : c < m.cols) (hs : sizeOk m) :
    m.set r c v = .ok { m with data := m.data.set (r * m.cols + c) v } := by
  unfold set index
  rw [if_neg (by omega)]
  rw [ok_bind, vecSet_ok v (by rw [hs]; exact flat_lt hr hc), ok_bind]
  rfl

theorem ix_ok {α : Type} {m : Matrix α} {r c : Nat}
    (hr : r < m.rows) (hc : c < m.cols) (hs : sizeOk m) :
    m.ix (r, c) = .ok (m.data.get ⟨r * m.cols + c, by rw [hs]; exact flat_lt hr hc⟩) := by
  unfold ix
  exact vecGet_ok _

theorem get_ok {α : Type} {m : Matrix α} {r c : Nat}
    (hr : r < m.rows) (hc : c < m.cols) (hs : sizeOk m) :
    m.get r c = .ok (m.data.get ⟨r * m.cols + c, by rw [hs]; exact flat_lt hr hc⟩) := by
  unfold get
  rw [if_neg (by omega)]
  exact vecGet_ok _

theorem swap_rows_shape {m m' : Matrix F64} {i j : Nat}
    (h : m.swap_rows i j = .ok m') :
    m'.rows = m.rows ∧ m'.cols = m.cols ∧ m'.data.length = m.data.length := by
  unfold swap_rows at h
  refine foldlM_pres
    (fun s => s.rows = m.rows ∧ s.cols = m.cols ∧ s.data.length = m.data.length)
    _ _ ?_ m m' ⟨rfl, rfl, rfl⟩ h
  intro s x s' hP _ hstep
  obtain ⟨i1, h1, hstep⟩ := bind_ok_elim hstep
  obtain ⟨i2, h2, hstep⟩ := bind_ok_elim hstep
  obtain ⟨d, h3, hstep⟩ := bind_ok_elim hstep
  obtain rfl : { s with data := d } = s' := pure_ok hstep
  exact ⟨hP.1, hP.2.1, (vecSwap_len h3).trans hP.2.2⟩

theorem luStep_shape {st st' : Matrix F64 × List Nat} {i : Nat}
    (h : luStep st i = .ok st') :
    st'.1.rows = st.1.rows ∧ st'.1.cols = st.1.cols ∧
      st'.1.data.length = st.1.data.length ∧ st'.2.length = st.2.length := by
  unfold luStep at h
  obtain ⟨mp, hmp, h⟩ := bind_ok_elim h
  split at h
  · exact absurd h (by simp [throw, throwThe, MonadExceptOf.throw])
  obtain ⟨pivots', hpv, h⟩ := bind_ok_elim h
  obtain ⟨a', hsw, h⟩ := bind_ok_elim h
  obtain ⟨a'', helim, h⟩ := bind_ok_elim h
  obtain rfl : (a'', pivots') = st' := pure_ok h
  obtain ⟨e1, e2, e3⟩ := swap_rows_shape hsw
  have helim' := foldlM_pres
    (fun s : Matrix F64 =>
      s.rows = st.1.rows ∧ s.cols = st.1.cols ∧ s.data.length = st.1.data.length)
    _ _ ?_ a' a'' ⟨e1, e2, e3⟩ helim
  · exact ⟨helim'.1, helim'.2.1, helim'.2.2, (vecSet_len hpv).trans rfl⟩
  intro s x s' hP _ hstep
  obtain ⟨u, hu, hstep⟩ := bind_ok_elim hstep
  obtain ⟨w, hw, hstep⟩ := bind_ok_elim hstep
  obtain ⟨s1, hs1, hstep⟩ := bind_ok_elim hstep
  obtain ⟨sh1, sh2, sh3⟩ := set_shape hs1
  refine foldlM_pres
    (fun s : Matrix F64 =>
      s.rows = st.1.rows ∧ s.cols = st.1.cols ∧ s.data.length = st.1.data.length)
    _ _ ?_ s1 s' ⟨sh1.trans hP.1, sh2.trans hP.2.1, sh3.trans hP.2.2⟩ hstep
  intro s x s' hP _ hstep
  obtain ⟨u, hu, hstep⟩ := bind_ok_elim hstep
  obtain ⟨w, hw, hstep⟩ := bind_ok_elim hstep
  obtain ⟨sh1, sh2, sh3⟩ := set_shape hstep
  exact ⟨sh1.trans hP.1, sh2.trans hP.2.1, sh3.trans hP.2.2⟩

theorem new_shape {r c : Nat} {m : Matrix F64} (h : new r c = .ok m) :
    sizeOk m ∧ 0 < m.rows ∧ 0 < m.cols := by
  unfold new at h
  split at h
  · exact absurd h (by simp)
  next hc =>
    obtain rfl : (⟨List.replicate (r * c) F64.zero, r, c⟩ : Matrix F64) = m := by
      simpa using h
    refine ⟨?_, ?_, ?_⟩
    · show (List.replicate (r * c) F64.zero).length = r * c
      exact List.length_replicate _ _
    · show 0 < r
      omega
    · show 0 < c
      omega

theorem from_data_shape {α : Type} {r c : Nat} {d : List α} {m : Matrix α}
    (h : from_data r c d = .ok m) :
    sizeOk m ∧ m.rows = r ∧ m.cols = c ∧ m.data = d := by
  unfold from_data at h
  split at h
  · exact absurd h (by simp)
  next hc =>
    obtain rfl : (⟨d, r, c⟩ : Matrix α) = m := by simpa using h
    exact ⟨by simpa [sizeOk] using hc, rfl, rfl, rfl⟩

theorem identity_sizeOk {n : Nat} {m : Matrix F64} (h : identity n = .ok m) :
    sizeOk m ∧ m.rows = n ∧ m.cols = n := by
  unfold identity at h
  obtain ⟨d, h1, h2⟩ := bind_ok_elim h
  obtain ⟨e1, e2, e3, _⟩ := from_data_shape h2
  exact ⟨e1, e2, e3⟩

theorem elementwise_sizeOk {self other m : Matrix F64}
    (f : F64 → F64 → F64)
    (h : (if self.rows ≠ other.rows ∨ self.cols ≠ other.cols then
        (.error (.err "Matrix dimensions do not match") : Except Fail (Matrix F64))
      else do
        let init ← new self.rows self.cols
        (List.range self.rows).foldlM (fun (res : Matrix F64) (i : Nat) =>
          (List.range self.cols).foldlM (fun (res : Matrix F64) (j : Nat) => do
            let idx ← res.index i j
            let a ← self.get i j
            let b ← other.get i j
            let d ← vecSet res.data idx (f a b)
            return { res with data := d }) res) init) = .ok m) :
    sizeOk m := by
  split at h
  · exact absurd h (by simp)
  obtain ⟨init, h1, h2⟩ := bind_ok_elim h
  refine foldlM_pres sizeOk _ _ ?_ init m (new_shape h1).1 h2
  intro s x s' hP _ hstep
  refine foldlM_pres sizeOk _ _ ?_ s s' hP hstep
  intro t y t' hQ _ hstep
  obtain ⟨idx, ha, hstep⟩ := bind_ok_elim hstep
  obtain ⟨a, hb, hstep⟩ := bind_ok_elim hstep
  obtain ⟨b, hc, hstep⟩ := bind_ok_elim hstep
  obtain ⟨d, hd, hstep⟩ := bind_ok_elim hstep
  obtain rfl : { t with data := d } = t' := pure_ok hstep
  show d.length = t.rows * t.cols
  rw [vecSet_len hd]
  exact hQ

theorem add_sizeOk {self other m : Matrix F64} (h : add self other = .ok m) :
    sizeOk m := elementwise_sizeOk F64.fadd h

theorem sub_sizeOk {self other m : Matrix F64} (h : sub self other = .ok m) :
    sizeOk m := elementwise_sizeOk F64.fsub h

theorem mul_sizeOk {self other m : Matrix F64} (h : mul self other = .ok m) :
    sizeOk m := by
  unfold mul at h
  split at h
  · exact absurd h (by simp)
  obtain ⟨init, h1, h2⟩ := bind_ok_elim h
  refine foldlM_pres sizeOk _ _ ?_ init m (new_shape h1).1 h2
  intro s x s' hP _ hstep
  refine foldlM_pres sizeOk _ _ ?_ s s' hP hstep
  intro s x s' hP _ hstep
  obtain ⟨sum, ha, hstep⟩ := bind_ok_elim hstep
  obtain ⟨idx, hb, hstep⟩ := bind_ok_elim hstep
  obtain ⟨d, hd, hstep⟩ := bind_ok_elim hstep
  obtain rfl : { s with data := d } = s' := pure_ok hstep
  show d.length = s.rows * s.cols
  rw [vecSet_len hd]
  exact hP

theorem transpose_sizeOk {self m : Matrix F64} (h : transpose self = .ok m) :
    sizeOk m := by
  unfold transpose at h
  obtain ⟨init, h1, h2⟩ := bind_ok_elim h
  have hinit : sizeOk init := by
    unfold unwrapR at h1
    split at h1
    next a heq =>
      obtain rfl : a = init := by simpa using h1
      exact (new_shape heq).1
    next => exact absurd h1 (by simp)
  refine foldlM_pres sizeOk _ _ ?_ init m hinit h2
  intro s x s' hP _ hstep
  refine foldlM_pres sizeOk _ _ ?_ s s' hP hstep
  intro t y t' hQ _ hstep
  obtain ⟨idx, ha, hstep⟩ := bind_ok_elim hstep
  obtain ⟨v, hb, hstep⟩ := bind_ok_elim hstep
  obtain ⟨d, hd, hstep⟩ := bind_ok_elim hstep
  obtain rfl : { t with data := d } = t' := pure_ok hstep
  show d.length = t.rows * t.cols
  rw [vecSet_len hd]
  exact hQ

theorem back_substitution_shape {L b x : Matrix F64} {p : List Nat}
    (h : back_substitution L p b = .ok x) :
    x.rows = b.rows ∧ x.cols = b.cols ∧ x.data.length = b.data.length := by
  unfold back_substitution at h
  obtain ⟨x1, h1, h⟩ := bind_ok_elim h
  obtain ⟨x2, h2, h⟩ := bind_ok_elim h
  have hfwd : ∀ (s : Matrix F64) (y : Nat) (s' : Matrix F64),
      (s.rows = b.rows ∧ s.cols = b.cols ∧ s.data.length = b.data.length) →
      ∀ hstep : (do
        let pi ← vecGet p y
        let sum ← (List.range y).foldlM (fun sum j => do
          let u ← s.ix (pi, j)
          let v ← s.ix (j, y)
          return F64.fadd sum (F64.fmul u v)) F64.zero
        let w ← s.ix (pi, y)
        s.set pi y (F64.fsub w sum)) = .ok s',
      s'.rows = b.rows ∧ s'.cols = b.cols ∧ s'.data.length = b.data.length := by
    intro s y s' hQ hstep
    obtain ⟨pi, ha, hstep⟩ := bind_ok_elim hstep
    obtain ⟨sum, hb, hstep⟩ := bind_ok_elim hstep
    obtain ⟨w, hw, hstep⟩ := bind_ok_elim hstep
    obtain ⟨e1, e2, e3⟩ := set_shape hstep
    exact ⟨e1.trans hQ.1, e2.trans hQ.2.1, e3.trans hQ.2.2⟩
  have P1 := foldlM_pres
    (fun s : Matrix F64 =>
      s.rows = b.rows ∧ s.cols = b.cols ∧ s.data.length = b.data.length)
    _ _ (fun s y s' hQ _ => hfwd s y s' hQ) b x1 ⟨rfl, rfl, rfl⟩ h1
  have P2 := foldlM_pres
    (fun s : Matrix F64 =>
      s.rows = b.rows ∧ s.cols = b.cols ∧ s.data.length = b.data.length)
    _ _ ?_ x1 x2 P1 h2
  · obtain rfl : x2 = x := pure_ok h
    exact P2
  intro s y s' hQ _ hstep
  obtain ⟨pi, ha, hstep⟩ := bind_ok_elim hstep
  obtain ⟨sum, hb, hstep⟩ := bind_ok_elim hstep
  obtain ⟨w, hw, hstep⟩ := bind_ok_elim hstep
  obtain ⟨d, hd, hstep⟩ := bind_ok_elim hstep
  obtain ⟨e1, e2, e3⟩ := set_shape hstep
  exact ⟨e1.trans hQ.1, e2.trans hQ.2.1, e3.trans hQ.2.2⟩

theorem back_substitution_sizeOk {L b x : Matrix F64} {p : List Nat}
    (hb : sizeOk b) (h : back_substitution L p b = .ok x) : sizeOk x := by
  obtain ⟨e1, e2, e3⟩ := back_substitution_shape h
  unfold sizeOk
  rw [e1, e2, e3, hb]

theorem inverse_sizeOk {self m : Matrix F64} (h : inverse self = .ok m) :
    sizeOk m := by
  unfold inverse at h
  split at h
  · exact absurd h (by simp)
  obtain ⟨lup, h1, h⟩ := bind_ok_elim h
  obtain ⟨idm, h2, h⟩ := bind_ok_elim h
  exact back_substitution_sizeOk (identity_sizeOk h2).1 h

theorem solve_sizeOk {self b x : Matrix F64} (hb : sizeOk b)
    (h : solve self b = .ok x) : sizeOk x := by
  unfold solve at h
  split at h
  · exact absurd h (by simp)
  obtain ⟨lup, h1, h⟩ := bind_ok_elim h
  exact back_substitution_sizeOk hb h

theorem lu_shape {mat A : Matrix F64} {p : List Nat}
    (h : lu_decomposition mat = .ok (A, p)) :
    A.rows = mat.rows ∧ A.cols = mat.cols ∧
      A.data.length = mat.data.length ∧ p.length = mat.rows := by
  unfold lu_decomposition at h
  have := foldlM_pres
    (fun st : Matrix F64 × List Nat =>
      st.1.rows = mat.rows ∧ st.1.cols = mat.cols ∧
        st.1.data.length = mat.data.length ∧ st.2.length = mat.rows)
    _ _ ?_ _ _ ⟨rfl, rfl, rfl, List.length_replicate _ _⟩ h
  · exact this
  intro s x s' hP _ hstep
  obtain ⟨e1, e2, e3, e4⟩ := luStep_shape hstep
  exact ⟨e1.trans hP.1, e2.trans hP.2.1, e3.trans hP.2.2.1, e4.trans hP.2.2.2⟩

theorem lu_sizeOk {mat A : Matrix F64} {p : List Nat} (hm : sizeOk mat)
    (h : lu_decomposition mat = .ok (A, p)) : sizeOk A := by
  obtain ⟨e1, e2, e3, _⟩ := lu_shape h
  unfold sizeOk
  rw [e1, e2, e3, hm]

end Matrix

/-! ### The reference LU algorithm of claim C5

These definitions follow the claim's (and spec §4.3's) wording, not the
source: at step `i` the pivot row is the *first* row `j` in `i..rows-1`
maximizing `|A[j,i]|`; that index is recorded at trace position `i`; rows `i`
and `j` are swapped in full; then each row `j` in `i+1..rows-1` is eliminated
(`factor = A[j,i]/A[i,i]` stored at `A[j,i]`, and
`A[j,k] -= factor * A[i,k]` for `k` in `i+1..cols-1`).  Entries are addressed
row-major (spec §3: element `(r,c)` at offset `r*cols+c`). -/

namespace Matrix

/-- Pure row-major read (spec §3 data model). -/
def entry (m : Matrix F64) (r c : Nat) : F64 := m.data.getD (r * m.cols + c) F64.zero

/-- Pure row-major write (spec §3 data model). -/
def pset (m : Matrix F64) (r c : Nat) (v : F64) : Matrix F64 :=
  { m with data := m.data.set (r * m.cols + c) v }

end Matrix

/-- The first row `j` of `i..rows-1` maximizing `|A[j,i]|`. -/
def refPivot (a : Matrix F64) (i : Nat) : Nat :=
  (List.range' i (a.rows - i)).foldl
    (fun best j =>
      if F64.fgt (F64.fabs (a.entry j i)) (F64.fabs (a.entry best i)) then j else best) i

/-- Rows `i` and `j` swapped in full. -/
def refSwapRows (a : Matrix F64) (i j : Nat) : Matrix F64 :=
  (List.range a.cols).foldl (fun s k =>
    let vi := s.entry i k
    let vj := s.entry j k
    (s.pset i k vj).pset j k vi) a

/-- One reference elimination step. -/
def refStep (st : Matrix F64 × List Nat) (i : Nat) : Matrix F64 × List Nat :=
  let a := st.1
  let p := refPivot a i
  let piv := st.2.set i p
  let a1 := refSwapRows a i p
  let a2 := (List.range' (i + 1) (a1.rows - (i + 1))).foldl (fun a j =>
      let factor := F64.fdiv (a.entry j i) (a.entry i i)
      let a' := a.pset j i factor
      (List.range' (i + 1) (a'.cols - (i + 1))).foldl (fun a k =>
          a.pset j k (F64.fsub (a.entry j k) (F64.fmul factor (a.entry i k)))) a') a1
  (a2, piv)

/-- The reference algorithm: steps `0..rows-1` starting from the input matrix
and a pivot trace of exactly `rows` entries. -/
def refLU (mat : Matrix F64) : Matrix F64 × List Nat :=
  (List.range mat.rows).foldl refStep (mat, List.replicate mat.rows 0)

namespace Matrix

theorem ix_entry {m : Matrix F64} {r c : Nat}
    (hr : r < m.rows) (hc : c < m.cols) (hs : sizeOk m) :
    m.ix (r, c) = .ok (m.entry r c) := by
  have hb : r * m.cols + c < m.data.length := by rw [hs]; exact flat_lt hr hc
  rw [ix_ok hr hc hs]
  unfold entry
  rw [List.getD_eq_getElem m.data F64.zero hb, List.get_eq_getElem]

theorem pset_shape (m : Matrix F64) (r c : Nat) (v : F64) :
    (m.pset r c v).rows = m.rows ∧ (m.pset r c v).cols = m.cols ∧
      (m.pset r c v).data.length = m.data.length := by
  unfold pset
  exact ⟨rfl, rfl, List.length_set _ _ _⟩

theorem set_eq_pset {m : Matrix F64} {r c : Nat} (v : F64)
    (hr : r < m.rows) (hc : c < m.cols) (hs : sizeOk m) :
    m.set r c v = .ok (m.pset r c v) := set_ok v hr hc hs

end Matrix

section Argmax

variable (v : Nat → F64)

/-- The source's running-maximum fold (`max_pivot`, `max_index`). -/
def cfold (L : List Nat) (mp : F64 × Nat) : F64 × Nat :=
  L.foldl (fun mp j => if F64.fgt (v j) mp.1 then (v j, j) else mp) mp

/-- The reference's first-argmax fold. -/
def rfold (L : List Nat) (b : Nat) : Nat :=
  L.foldl (fun best j => if F64.fgt (v j) (v best) then j else best) b

theorem argmax_aligned : ∀ (L : List Nat) (b : Nat),
    cfold v L (v b, b) = (v (rfold v L b), rfold v L b) := by
  intro L
  induction L with
  | nil => intro b; rfl
  | cons j l ih =>
    intro b
    unfold cfold rfold
    rw [List.foldl_cons, List.foldl_cons]
    by_cases h : F64.fgt (v j) (v b)
    · rw [if_pos h, if_pos h]; exact ih j
    · rw [if_neg h, if_neg h]; exact ih b

theorem rfold_mem : ∀ (L : List Nat) (b : Nat), rfold v L b ∈ b :: L := by
  intro L
  induction L with
  | nil => intro b; exact List.mem_cons_self b []
  | cons j l ih =>
    intro b
    unfold rfold
    rw [List.foldl_cons]
    by_cases h : F64.fgt (v j) (v b)
    · rw [if_pos h]
      exact List.mem_cons_of_mem b (ih j)
    · rw [if_neg h]
      rcases List.mem_cons.1 (ih b) with h1 | h1
      · show rfold v l b ∈ b :: j :: l
        rw [h1]
        exact List.mem_cons_self b _
      · exact List.mem_cons_of_mem b (List.mem_cons_of_mem j h1)

theorem argmax_zero : ∀ (L : List Nat) (b m₀ : Nat), F64.val (v b) = 0 →
    F64.val (cfold v L (F64.zero, m₀)).1 ≠ 0 →
    cfold v L (F64.zero, m₀) = (v (rfold v L b), rfold v L b) := by
  intro L
  induction L with
  | nil =>
    intro b m₀ _ hne
    exact absurd F64.val_zero hne
  | cons j l ih =>
    intro b m₀ hb hne
    unfold cfold rfold at *
    rw [List.foldl_cons] at hne ⊢
    rw [List.foldl_cons]
    by_cases h : F64.fgt (v j) F64.zero
    · rw [if_pos h] at hne ⊢
      have h' : F64.fgt (v j) (v b) = true := by
        rw [F64.fgt_iff, hb]
        rw [F64.fgt_iff, F64.val_zero] at h
        exact h
      rw [if_pos h']
      exact argmax_aligned v l j
    · rw [if_neg h] at hne ⊢
      have h' : ¬F64.fgt (v j) (v b) = true := by
        rw [F64.fgt_iff, hb]
        rw [F64.fgt_iff, F64.val_zero] at h
        exact h
      rw [if_neg h']
      exact ih b m₀ hb hne

end Argmax

theorem unwrapR_ok {α : Type} (a : α) : unwrapR (.ok a) = .ok a := rfl

theorem index_ok {α : Type} {m : Matrix α} {r c : Nat}
    (hr : r < m.rows) (hc : c < m.cols) : m.index r c = .ok (r * m.cols + c) := by
  unfold Matrix.index
  rw [if_neg (by omega)]

theorem vecSwap_ok {α : Type} {l : List α} {i j : Nat}
    (hi : i < l.length) (hj : j < l.length) :
    vecSwap l i j = .ok ((l.set i (l.get ⟨j, hj⟩)).set j (l.get ⟨i, hi⟩)) := by
  unfold vecSwap
  rw [dif_pos ⟨hi, hj⟩]

theorem refPivot_lt (a : Matrix F64) (i : Nat) (hi : i < a.rows) :
    refPivot a i < a.rows := by
  have h := rfold_mem (fun j => F64.fabs (a.entry j i)) (List.range' i (a.rows - i)) i
  rcases List.mem_cons.1 h with h1 | h1
  · unfold refPivot
    show rfold (fun j => F64.fabs (a.entry j i)) (List.range' i (a.rows - i)) i < a.rows
    omega
  · have := (List.mem_range'_1.1 h1).2
    unfold refPivot
    show rfold (fun j => F64.fabs (a.entry j i)) (List.range' i (a.rows - i)) i < a.rows
    omega

theorem pivot_search_eq (a : Matrix F64) (i : Nat) (hi : i < a.rows)
    (hne : F64.val (cfold (fun j => F64.fabs (a.entry j i))
      (List.range' i (a.rows - i)) (F64.zero, 0)).1 ≠ 0) :
    cfold (fun j => F64.fabs (a.entry j i)) (List.range' i (a.rows - i)) (F64.zero, 0)
      = (F64.fabs (a.entry (refPivot a i) i), refPivot a i) := by
  set v : Nat → F64 := fun j => F64.fabs (a.entry j i) with hv
  have hL : List.range' i (a.rows - i) = i :: List.range' (i + 1) (a.rows - i - 1) := by
    conv_lhs => rw [show a.rows - i = (a.rows - i - 1) + 1 by omega]
    rw [List.range'_succ]
  set L' := List.range' (i + 1) (a.rows - i - 1) with hL'
  rw [hL] at hne ⊢
  have hrefP : refPivot a i = rfold v L' i := by
    unfold refPivot
    rw [hL]
    show rfold v (i :: L') i = rfold v L' i
    unfold rfold
    rw [List.foldl_cons, ite_self]
  by_cases h0 : F64.fgt (v i) F64.zero
  · have hstep : cfold v (i :: L') (F64.zero, 0) = cfold v L' (v i, i) := by
      unfold cfold
      rw [List.foldl_cons, if_pos h0]
    rw [hstep, argmax_aligned v L' i, hrefP]
  · have hstep : cfold v (i :: L') (F64.zero, 0) = cfold v L' (F64.zero, 0) := by
      unfold cfold
      rw [List.foldl_cons, if_neg h0]
    rw [hstep] at hne ⊢
    have hvi : F64.val (v i) = 0 := by
      rw [F64.fgt_iff, F64.val_zero] at h0
      have : 0 ≤ F64.val (v i) := by
        rw [hv]
        rw [F64.fabs_val]
        exact abs_nonneg _
      push_neg at h0
      linarith
    rw [argmax_zero v L' i 0 hvi hne, hrefP]

theorem swap_rows_eq_ref {a : Matrix F64} {i j : Nat}
    (hi : i < a.rows) (hj : j < a.rows) (hs : sizeOk a) :
    a.swap_rows i j = .ok (refSwapRows a i j) ∧
      (refSwapRows a i j).rows = a.rows ∧ (refSwapRows a i j).cols = a.cols ∧
      sizeOk (refSwapRows a i j) := by
  have hstep : ∀ (s : Matrix F64) (k : Nat),
      (s.rows = a.rows ∧ s.cols = a.cols ∧ s.data.length = a.data.length) →
      k ∈ List.range a.cols →
      ((do
        let index1 ← unwrapR (s.index i k)
        let index2 ← unwrapR (s.index j k)
        let d ← vecSwap s.data index1 index2
        return { s with data := d }) = .ok
          (let vi := s.entry i k
           let vj := s.entry j k
           (s.pset i k vj).pset j k vi)) ∧
      ((let vi := s.entry i k
        let vj := s.entry j k
        (s.pset i k vj).pset j k vi).rows = a.rows ∧
       (let vi := s.entry i k
        let vj := s.entry j k
        (s.pset i k vj).pset j k vi).cols = a.cols ∧
       (let vi := s.entry i k
        let vj := s.entry j k
        (s.pset i k vj).pset j k vi).data.length = a.data.length) := by
    intro s k hP hk
    have hkc : k < s.cols := by rw [hP.2.1]; exact List.mem_range.1 hk
    have his : i < s.rows := by rw [hP.1]; exact hi
    have hjs : j < s.rows := by rw [hP.1]; exact hj
    have hlen : s.data.length = s.rows * s.cols := by
      rw [hP.1, hP.2.1, hP.2.2]; exact hs
    have hb1 : i * s.cols + k < s.data.length := by rw [hlen]; exact flat_lt his hkc
    have hb2 : j * s.cols + k < s.data.length := by rw [hlen]; exact flat_lt hjs hkc
    constructor
    · rw [index_ok his hkc, index_ok hjs hkc, unwrapR_ok, unwrapR_ok, ok_bind, ok_bind,
        vecSwap_ok hb1 hb2, ok_bind]
      show Except.ok _ = Except.ok _
      unfold Matrix.pset Matrix.entry
      rw [List.getD_eq_getElem s.data F64.zero hb2, List.getD_eq_getElem s.data F64.zero hb1]
      simp only [List.get_eq_getElem]
    · refine ⟨hP.1, hP.2.1, ?_⟩
      show ((s.data.set _ _).set _ _).length = a.data.length
      rw [List.length_set, List.length_set]
      exact hP.2.2
  have key := foldlM_eq_ok_foldl
    (fun s : Matrix F64 =>
      s.rows = a.rows ∧ s.cols = a.cols ∧ s.data.length = a.data.length)
    (fun (s : Matrix F64) (k : Nat) => do
      let index1 ← unwrapR (s.index i k)
      let index2 ← unwrapR (s.index j k)
      let d ← vecSwap s.data index1 index2
      return { s with data := d })
    (fun (s : Matrix F64) (k : Nat) =>
      let vi := s.entry i k
      let vj := s.entry j k
      (s.pset i k vj).pset j k vi)
    (List.range a.cols) hstep a ⟨rfl, rfl, rfl⟩
  unfold Matrix.swap_rows refSwapRows
  refine ⟨key.1, key.2.1, key.2.2.1, ?_⟩
  have P3 := key.2
  unfold sizeOk
  rw [P3.2.2, P3.1, P3.2.1]
  exact hs

theorem elim_eq_ref {a1 : Matrix F64} {R i : Nat}
    (h1 : a1.rows = R) (h2 : a1.cols = R) (h3 : a1.data.length = R * R)
    (hiR : i < R) :
    ((List.range' (i + 1) (a1.rows - (i + 1))).foldlM (fun (a : Matrix F64) (j : Nat) => do
        let x ← a.ix (j, i)
        let y ← a.ix (i, i)
        let factor := F64.fdiv x y
        let a ← a.set j i factor
        (List.range' (i + 1) (a.cols - (i + 1))).foldlM (fun (a : Matrix F64) (k : Nat) => do
            let u ← a.ix (j, k)
            let w ← a.ix (i, k)
            a.set j k (F64.fsub u (F64.fmul factor w))) a) a1) = .ok
      ((List.range' (i + 1) (a1.rows - (i + 1))).foldl (fun a j =>
        let factor := F64.fdiv (a.entry j i) (a.entry i i)
        let a' := a.pset j i factor
        (List.range' (i + 1) (a'.cols - (i + 1))).foldl (fun a k =>
            a.pset j k (F64.fsub (a.entry j k) (F64.fmul factor (a.entry i k)))) a') a1) ∧
      ((List.range' (i + 1) (a1.rows - (i + 1))).foldl (fun a j =>
        let factor := F64.fdiv (a.entry j i) (a.entry i i)
        let a' := a.pset j i factor
        (List.range' (i + 1) (a'.cols - (i + 1))).foldl (fun a k =>
            a.pset j k (F64.fsub (a.entry j k) (F64.fmul factor (a.entry i k)))) a') a1).rows = R ∧
      ((List.range' (i + 1) (a1.rows - (i + 1))).foldl (fun a j =>
        let factor := F64.fdiv (a.entry j i) (a.entry i i)
        let a' := a.pset j i factor
        (List.range' (i + 1) (a'.cols - (i + 1))).foldl (fun a k =>
            a.pset j k (F64.fsub (a.entry j k) (F64.fmul factor (a.entry i k)))) a') a1).cols = R ∧
      ((List.range' (i + 1) (a1.rows - (i + 1))).foldl (fun a j =>
        let factor := F64.fdiv (a.entry j i) (a.entry i i)
        let a' := a.pset j i factor
        (List.range' (i + 1) (a'.cols - (i + 1))).foldl (fun a k =>
            a.pset j k (F64.fsub (a.entry j k) (F64.fmul factor (a.entry i k)))) a') a1).data.length
        = R * R := by
  have hstep : ∀ (s : Matrix F64) (j : Nat),
      (s.rows = R ∧ s.cols = R ∧ s.data.length = R * R) →
      j ∈ List.range' (i + 1) (a1.rows - (i + 1)) →
      ((do
        let x ← s.ix (j, i)
        let y ← s.ix (i, i)
        let factor := F64.fdiv x y
        let a ← s.set j i factor
        (List.range' (i + 1) (a.cols - (i + 1))).foldlM (fun (a : Matrix F64) (k : Nat) => do
            let u ← a.ix (j, k)
            let w ← a.ix (i, k)
            a.set j k (F64.fsub u (F64.fmul factor w))) a) = .ok
        (let factor := F64.fdiv (s.entry j i) (s.entry i i)
         let a' := s.pset j i factor
         (List.range' (i + 1) (a'.cols - (i + 1))).foldl (fun a k =>
            a.pset j k (F64.fsub (a.entry j k) (F64.fmul factor (a.entry i k)))) a')) ∧
      ((let factor := F64.fdiv (s.entry j i) (s.entry i i)
        let a' := s.pset j i factor
        (List.range' (i + 1) (a'.cols - (i + 1))).foldl (fun a k =>
            a.pset j k (F64.fsub (a.entry j k) (F64.fmul factor (a.entry i k)))) a').rows = R ∧
       (let factor := F64.fdiv (s.entry j i) (s.entry i i)
        let a' := s.pset j i factor
        (List.range' (i + 1) (a'.cols - (i + 1))).foldl (fun a k =>
            a.pset j k (F64.fsub (a.entry j k) (F64.fmul factor (a.entry i k)))) a').cols = R ∧
       (let factor := F64.fdiv (s.entry j i) (s.entry i i)
        let a' := s.pset j i factor
        (List.range' (i + 1) (a'.cols - (i + 1))).foldl (fun a k =>
            a.pset j k (F64.fsub (a.entry j k) (F64.fmul factor (a.entry i k)))) a').data.length
          = R * R) := by
    intro s j hP hj
    have hjR : j < s.rows := by
      rw [hP.1]
      have := (List.mem_range'_1.1 hj).2
      rw [h1] at this
      omega
    have hiC : i < s.cols := by rw [hP.2.1]; exact hiR
    have hiRs : i < s.rows := by rw [hP.1]; exact hiR
    have hsOk : sizeOk s := by
      show s.data.length = s.rows * s.cols
      rw [hP.1, hP.2.1, hP.2.2]
    rw [Matrix.ix_entry hjR hiC hsOk, ok_bind, Matrix.ix_entry hiRs hiC hsOk, ok_bind]
    dsimp only
    rw [Matrix.set_eq_pset _ hjR hiC hsOk, ok_bind]
    set factor := F64.fdiv (s.entry j i) (s.entry i i) with hfac
    set s1 := s.pset j i factor with hs1
    have hP1 : s1.rows = R ∧ s1.cols = R ∧ s1.data.length = R * R := by
      obtain ⟨q1, q2, q3⟩ := Matrix.pset_shape s j i factor
      exact ⟨q1.trans hP.1, q2.trans hP.2.1, q3.trans hP.2.2⟩
    have hinner : ∀ (t : Matrix F64) (k : Nat),
        (t.rows = R ∧ t.cols = R ∧ t.data.length = R * R) →
        k ∈ List.range' (i + 1) (s1.cols - (i + 1)) →
        ((do
          let u ← t.ix (j, k)
          let w ← t.ix (i, k)
          t.set j k (F64.fsub u (F64.fmul factor w))) = .ok
            (t.pset j k (F64.fsub (t.entry j k) (F64.fmul factor (t.entry i k))))) ∧
        ((t.pset j k (F64.fsub (t.entry j k) (F64.fmul factor (t.entry i k)))).rows = R ∧
         (t.pset j k (F64.fsub (t.entry j k) (F64.fmul factor (t.entry i k)))).cols = R ∧
         (t.pset j k (F64.fsub (t.entry j k)
            (F64.fmul factor (t.entry i k)))).data.length = R * R) := by
      intro t k hQ hk
      have hkC : k < t.cols := by
        rw [hQ.2.1]
        have := (List.mem_range'_1.1 hk).2
        have hc1 : s1.cols = R := hP1.2.1
        omega
      have hjRt : j < t.rows := by rw [hQ.1, ← hP.1]; exact hjR
      have hiRt : i < t.rows := by rw [hQ.1]; exact hiR
      have htOk : sizeOk t := by
        show t.data.length = t.rows * t.cols
        rw [hQ.1, hQ.2.1, hQ.2.2]
      constructor
      · rw [Matrix.ix_entry hjRt hkC htOk, ok_bind, Matrix.ix_entry hiRt hkC htOk, ok_bind,
          Matrix.set_eq_pset _ hjRt hkC htOk]
      · obtain ⟨q1, q2, q3⟩ := Matrix.pset_shape t j k
          (F64.fsub (t.entry j k) (F64.fmul factor (t.entry i k)))
        exact ⟨q1.trans hQ.1, q2.trans hQ.2.1, q3.trans hQ.2.2⟩
    have key := foldlM_eq_ok_foldl
      (fun t : Matrix F64 => t.rows = R ∧ t.cols = R ∧ t.data.length = R * R)
      (fun (t : Matrix F64) (k : Nat) => do
        let u ← t.ix (j, k)
        let w ← t.ix (i, k)
        t.set j k (F64.fsub u (F64.fmul factor w)))
      (fun (t : Matrix F64) (k : Nat) =>
        t.pset j k (F64.fsub (t.entry j k) (F64.fmul factor (t.entry i k))))
      (List.range' (i + 1) (s1.cols - (i + 1))) hinner s1 hP1
    exact ⟨key.1, key.2⟩
  have key := foldlM_eq_ok_foldl
    (fun s : Matrix F64 => s.rows = R ∧ s.cols = R ∧ s.data.length = R * R)
    (fun (s : Matrix F64) (j : Nat) => do
      let x ← s.ix (j, i)
      let y ← s.ix (i, i)
      let factor := F64.fdiv x y
      let a ← s.set j i factor
      (List.range' (i + 1) (a.cols - (i + 1))).foldlM (fun (a : Matrix F64) (k : Nat) => do
          let u ← a.ix (j, k)
          let w ← a.ix (i, k)
          a.set j k (F64.fsub u (F64.fmul factor w))) a)
    (fun (s : Matrix F64) (j : Nat) =>
      let factor := F64.fdiv (s.entry j i) (s.entry i i)
      let a' := s.pset j i factor
      (List.range' (i + 1) (a'.cols - (i + 1))).foldl (fun a k =>
          a.pset j k (F64.fsub (a.entry j k) (F64.fmul factor (a.entry i k)))) a')
    (List.range' (i + 1) (a1.rows - (i + 1))) hstep a1 ⟨h1, h2, h3⟩
  exact ⟨key.1, key.2⟩

theorem luStep_eq_refStep {st : Matrix F64 × List Nat} {R i : Nat}
    (hrows : st.1.rows = R) (hcols : st.1.cols = R)
    (hsz : st.1.data.length = R * R) (hplen : st.2.length = R) (hi : i < R) :
    (∃ e, Matrix.luStep st i = .error e) ∨
      (Matrix.luStep st i = .ok (refStep st i) ∧
        (refStep st i).1.rows = R ∧ (refStep st i).1.cols = R ∧
        (refStep st i).1.data.length = R * R ∧ (refStep st i).2.length = R) := by
  obtain ⟨a, pivots⟩ := st
  dsimp only at hrows hcols hsz hplen
  have hiRa : i < a.rows := by rw [hrows]; exact hi
  have hiCa : i < a.cols := by rw [hcols]; exact hi
  have haOk : sizeOk a := by show _ = _; rw [hrows, hcols, hsz]
  have hpivfold : (List.range' i (a.rows - i)).foldlM
      (fun (mp : F64 × Nat) (j : Nat) => do
        let v ← a.ix (j, i)
        let abs_pivot := F64.fabs v
        return if F64.fgt abs_pivot mp.1 then (abs_pivot, j) else mp)
      ((F64.zero, 0) : F64 × Nat)
      = .ok (cfold (fun j => F64.fabs (a.entry j i))
          (List.range' i (a.rows - i)) (F64.zero, 0)) := by
    have hstep : ∀ (mp : F64 × Nat) (j : Nat), True → j ∈ List.range' i (a.rows - i) →
        ((do
          let v ← a.ix (j, i)
          let abs_pivot := F64.fabs v
          return if F64.fgt abs_pivot mp.1 then (abs_pivot, j) else mp) = .ok
            (if F64.fgt (F64.fabs (a.entry j i)) mp.1
              then (F64.fabs (a.entry j i), j) else mp)) ∧ True := by
      intro mp j _ hj
      have hjR : j < a.rows := by
        have := (List.mem_range'_1.1 hj).2
        omega
      rw [Matrix.ix_entry hjR hiCa haOk, ok_bind]
      exact ⟨rfl, trivial⟩
    exact (foldlM_eq_ok_foldl (fun _ => True) _
      (fun (mp : F64 × Nat) (j : Nat) =>
        if F64.fgt (F64.fabs (a.entry j i)) mp.1 then (F64.fabs (a.entry j i), j) else mp)
      (List.range' i (a.rows - i)) hstep (F64.zero, 0) trivial).1
  unfold Matrix.luStep refStep
  dsimp only
  rw [hpivfold, ok_bind]
  by_cases hz : F64.feqZero (cfold (fun j => F64.fabs (a.entry j i))
      (List.range' i (a.rows - i)) (F64.zero, 0)).1 = true
  · left
    refine ⟨Fail.err "Matrix is singular", ?_⟩
    rw [if_pos hz]
    rfl
  · right
    rw [if_neg hz]
    have hne : F64.val (cfold (fun j => F64.fabs (a.entry j i))
        (List.range' i (a.rows - i)) (F64.zero, 0)).1 ≠ 0 := by
      intro h0
      exact hz ((F64.feqZero_iff _).2 h0)
    have hmp := pivot_search_eq a i hiRa hne
    rw [hmp]
    dsimp only
    have hpstar : refPivot a i < a.rows := refPivot_lt a i hiRa
    rw [vecSet_ok (refPivot a i) (show i < pivots.length by rw [hplen]; exact hi), ok_bind]
    obtain ⟨hswap, hr1, hc1, hs1⟩ := swap_rows_eq_ref hiRa hpstar haOk
    rw [hswap, ok_bind]
    have hlen1 : (refSwapRows a i (refPivot a i)).data.length = R * R := by
      have : (refSwapRows a i (refPivot a i)).data.length =
          (refSwapRows a i (refPivot a i)).rows * (refSwapRows a i (refPivot a i)).cols := hs1
      rw [this, hr1, hc1, hrows, hcols]
    obtain ⟨helim, er, ec, el⟩ :=
      elim_eq_ref (hr1.trans hrows) (hc1.trans hcols) hlen1 hi
    rw [helim, ok_bind]
    refine ⟨rfl, er, ec, el, ?_⟩
    rw [List.length_set]
    exact hplen

/-- **C5** (confirmed). On every well-sized square matrix on which it
succeeds, `lu_decomposition` returns exactly the claim's reference
algorithm's pair — first-maximizer pivot choice recorded at trace position
`i`, full row swap, compact-storage elimination — and the returned pivot
trace has exactly `rows` entries. -/
theorem lu_decomposition_matches_reference {mat : Matrix F64} (hs : sizeOk mat)
    (hsq : mat.rows = mat.cols) {A : Matrix F64} {p : List Nat}
    (h : Matrix.lu_decomposition mat = .ok (A, p)) :
    (A, p) = refLU mat ∧ p.length = mat.rows := by
  have hsz : mat.data.length = mat.rows * mat.rows := by
    rw [hs, ← hsq]
  have key := foldlM_ok_imp_foldl
    (fun st : Matrix F64 × List Nat =>
      st.1.rows = mat.rows ∧ st.1.cols = mat.rows ∧
        st.1.data.length = mat.rows * mat.rows ∧ st.2.length = mat.rows)
    Matrix.luStep refStep (List.range mat.rows) ?_ (mat, List.replicate mat.rows 0)
    (A, p) ⟨rfl, hsq.symm, hsz, List.length_replicate _ _⟩ h
  · exact ⟨key.1, key.2.2.2.2⟩
  intro st i hP hi
  rcases luStep_eq_refStep hP.1 hP.2.1 hP.2.2.1 hP.2.2.2 (List.mem_range.1 hi) with h1 | h1
  · exact Or.inl h1
  · exact Or.inr ⟨h1.1, h1.2.1, h1.2.2.1, h1.2.2.2⟩

/-! ### Element model for the IEEE-equality claim (C8) -/

/-- Modelled from IEEE-754 binary64 for the equality claim: finite values
(with `+0.0` as `fin F64.zero`), negative zero, infinities, and NaNs with
distinguishable payloads.  Two values are bit-for-bit identical exactly when
they are equal as `FVal` terms. -/
inductive FVal where
  | fin (x : F64)
  | negZero
  | inf
  | negInf
  | nan (payload : Nat)
deriving DecidableEq

/-- IEEE-754 `==` on doubles: `+0.0 == -0.0` holds, a NaN compares unequal to
everything (a bit-identical NaN included), infinities compare by sign. -/
def fvalEq : FVal → FVal → Bool
  | .fin a, .fin b => a == b
  | .fin a, .negZero => a == F64.zero
  | .negZero, .fin b => b == F64.zero
  | .negZero, .negZero => true
  | .inf, .inf => true
  | .negInf, .negInf => true
  | _, _ => false

/-- IEEE-754 `!=`: the boolean negation of `==`. -/
def fvalNe (a b : FVal) : Bool := !(fvalEq a b)

/-- Generic row-major read with an explicit default (irrelevant in bounds). -/
def Matrix.entryD {α : Type} (d : α) (m : Matrix α) (r c : Nat) : α :=
  m.data.getD (r * m.cols + c) d

/-- A 1×1 matrix holding a NaN. -/
def mNaN : Matrix FVal := ⟨[FVal.nan 0], 1, 1⟩

/-- A 1×1 matrix holding `+0.0`. -/
def mPosZero : Matrix FVal := ⟨[FVal.fin F64.zero], 1, 1⟩

/-- A 1×1 matrix holding `-0.0`. -/
def mNegZero : Matrix FVal := ⟨[FVal.negZero], 1, 1⟩

theorem foldlM_bool {β : Type} (g : Bool → β → Except Fail Bool) (F : β → Bool) :
    ∀ L : List β, (∀ acc x, x ∈ L → g acc x = .ok (acc && F x)) →
      ∀ acc, L.foldlM g acc = .ok (acc && L.all F) := by
  intro L
  induction L with
  | nil =>
    intro _ acc
    rw [List.foldlM_nil, List.all_nil, Bool.and_true]
    rfl
  | cons a l ih =>
    intro h acc
    rw [List.foldlM_cons, h acc a (List.mem_cons_self a l), ok_bind,
      ih (fun acc x hx => h acc x (List.mem_cons_of_mem a hx)) (acc && F a),
      List.all_cons, Bool.and_assoc]

theorem get_entryD {α : Type} {m : Matrix α} {r c : Nat} (d : α)
    (hr : r < m.rows) (hc : c < m.cols) (hs : sizeOk m) :
    m.get r c = .ok (m.entryD d r c) := by
  have hb : r * m.cols + c < m.data.length := by rw [hs]; exact flat_lt hr hc
  rw [Matrix.get_ok hr hc hs]
  unfold Matrix.entryD
  rw [List.getD_eq_getElem m.data d hb, List.get_eq_getElem]

/-- **C8 counterexample**. The `PartialEq` impl uses IEEE `!=` on elements,
not bit-pattern comparison: a matrix holding a NaN is *not* equal to itself
(bit-for-bit identical elements, yet `==` is false), while `[[+0.0]]` and
`[[-0.0]]` *are* equal (different bit patterns, yet `==` is true).  Both
directions of the claimed equivalence fail. -/
theorem matrix_eq_not_bitwise :
    Matrix.matrix_eq fvalNe mNaN mNaN = .ok false ∧
      Matrix.matrix_eq fvalNe mPosZero mNegZero = .ok true ∧
      mPosZero.data ≠ mNegZero.data := by
  refine ⟨by decide, by decide, by decide⟩

/-- **C8** (corrected). For well-sized matrices, the `PartialEq` impl returns
`true` exactly when the shapes agree and every corresponding element pair is
equal under IEEE-754 `==` — which equates `+0.0` with `-0.0` and makes any
matrix containing a NaN unequal to everything, itself included. -/
theorem matrix_eq_iff_ieee (A B : Matrix FVal) (hA : sizeOk A) (hB : sizeOk B) :
    Matrix.matrix_eq fvalNe A B = .ok true ↔
      (A.rows = B.rows ∧ A.cols = B.cols ∧
        ∀ i, i < A.rows → ∀ j, j < A.cols →
          fvalEq (A.entryD (FVal.nan 0) i j) (B.entryD (FVal.nan 0) i j) = true) := by
  unfold Matrix.matrix_eq
  split
  next hc =>
    constructor
    · intro h
      exact absurd h (by simp)
    · intro h
      rcases hc with hc | hc
      · exact absurd h.1 hc
      · exact absurd h.2.1 hc
  next hc =>
    push_neg at hc
    obtain ⟨hrows, hcols⟩ := hc
    have hfold : (List.range A.rows).foldlM (fun acc i =>
        (List.range A.cols).foldlM (fun acc j =>
          if acc then do
            let a ← unwrapR (A.get i j)
            let b ← unwrapR (B.get i j)
            return !(fvalNe a b)
          else return false) acc) true
        = .ok ((List.range A.rows).all (fun i => (List.range A.cols).all (fun j =>
            fvalEq (A.entryD (FVal.nan 0) i j) (B.entryD (FVal.nan 0) i j)))) := by
      have h1 := foldlM_bool (fun acc i =>
          (List.range A.cols).foldlM (fun acc j =>
            if acc then do
              let a ← unwrapR (A.get i j)
              let b ← unwrapR (B.get i j)
              return !(fvalNe a b)
            else return false) acc)
        (fun i => (List.range A.cols).all (fun j =>
          fvalEq (A.entryD (FVal.nan 0) i j) (B.entryD (FVal.nan 0) i j)))
        (List.range A.rows) ?_ true
      · rw [h1, Bool.true_and]
      intro acc i hi
      have hiA : i < A.rows := List.mem_range.1 hi
      have h2 := foldlM_bool (fun acc j =>
          if acc then do
            let a ← unwrapR (A.get i j)
            let b ← unwrapR (B.get i j)
            return !(fvalNe a b)
          else return false)
        (fun j => fvalEq (A.entryD (FVal.nan 0) i j) (B.entryD (FVal.nan 0) i j))
        (List.range A.cols) ?_ acc
      · exact h2
      intro acc2 j hj
      have hjA : j < A.cols := List.mem_range.1 hj
      cases acc2 with
      | false =>
        dsimp only
        rw [Bool.false_and, if_neg (by simp)]
        rfl
      | true =>
        dsimp only
        rw [if_pos rfl, Bool.true_and]
        rw [get_entryD (FVal.nan 0) hiA hjA hA,
          get_entryD (FVal.nan 0) (hrows ▸ hiA) (hcols ▸ hjA) hB,
          unwrapR_ok, unwrapR_ok, ok_bind, ok_bind]
        show Except.ok _ = Except.ok _
        unfold fvalNe
        rw [Bool.not_not]
    rw [hfold]
    constructor
    · intro h
      have hall : (List.range A.rows).all (fun i => (List.range A.cols).all (fun j =>
          fvalEq (A.entryD (FVal.nan 0) i j) (B.entryD (FVal.nan 0) i j))) = true := by
        simpa using h
      refine ⟨hrows, hcols, ?_⟩
      intro i hi j hj
      have h3 := List.all_eq_true.1 hall i (List.mem_range.2 hi)
      exact List.all_eq_true.1 h3 j (List.mem_range.2 hj)
    · intro ⟨_, _, h⟩
      have hall : (List.range A.rows).all (fun i => (List.range A.cols).all (fun j =>
          fvalEq (A.entryD (FVal.nan 0) i j) (B.entryD (FVal.nan 0) i j))) = true := by
        refine List.all_eq_true.2 ?_
        intro i hi
        refine List.all_eq_true.2 ?_
        intro j hj
        exact h i (List.mem_range.1 hi) j (List.mem_range.1 hj)
      rw [hall]

/-- Witness for C8's theorem at a concrete pair: `[[+0.0]]` equals
`[[-0.0]]` under the implementation, matching the IEEE elementwise
characterisation. -/
theorem matrix_eq_iff_ieee_witness :
    (sizeOk mPosZero ∧ sizeOk mNegZero) ∧
      (Matrix.matrix_eq fvalNe mPosZero mNegZero = .ok true ↔
        (mPosZero.rows = mNegZero.rows ∧ mPosZero.cols = mNegZero.cols ∧
          ∀ i, i < mPosZero.rows → ∀ j, j < mPosZero.cols →
            fvalEq (mPosZero.entryD (FVal.nan 0) i j)
              (mNegZero.entryD (FVal.nan 0) i j) = true)) :=
  ⟨⟨by decide, by decide⟩, matrix_eq_iff_ieee mPosZero mNegZero (by decide) (by decide)⟩

/-! ### C9: state-passing translations that track the caller's buffers

In the source, `lu_decomposition(mat: &Matrix)` immediately clones
(`let mut a = mat.clone();` — a deep copy, `Matrix` derives `Clone` and owns a
`Vec<f64>`), and every later write (`a.set`, `a.swap_rows`,
`pivots[i] = …`) targets `a` or the local `pivots`; `solve` likewise passes
`b.clone()` to `back_substitution`, which owns its operand `x`.  The tracked
translations below carry the caller's buffer as an explicit untouched state
component through the same loop structure, so non-mutation of caller data is
a provable equation rather than a typing convention of the embedding. -/

/-- Pairs a result with the caller-owned value observed after the call. -/
def withCaller {α τ : Type} (c : τ) : Except Fail α → Except Fail (α × τ)
  | .ok a => .ok (a, c)
  | .error e => .error e

/-- Threads an untouched component through a state. -/
def keepL {τ α : Type} (c : τ) : Except Fail α → Except Fail (τ × α)
  | .ok a => .ok (c, a)
  | .error e => .error e

theorem foldlM_keepL {τ σ β : Type} (g : σ → β → Except Fail σ)
    (gT : τ × σ → β → Except Fail (τ × σ))
    (hstep : ∀ c s x, gT (c, s) x = keepL c (g s x)) :
    ∀ (L : List β) (c : τ) (s : σ), L.foldlM gT (c, s) = keepL c (L.foldlM g s) := by
  intro L
  induction L with
  | nil => intro c s; rfl
  | cons a l ih =>
    intro c s
    rw [List.foldlM_cons, List.foldlM_cons, hstep]
    cases h : g s a with
    | ok s' =>
      show (keepL c (Except.ok s') >>= _) = _
      rw [show keepL c (Except.ok s') = .ok (c, s') from rfl, ok_bind, ok_bind]
      exact ih c s'
    | error e =>
      rw [show keepL c (Except.error e : Except Fail σ) = .error e from rfl, error_bind,
        error_bind]
      rfl

/-- `luStep` over the state `(caller, (a, pivots))`: the source's writes all
target the clone `a` and the local `pivots`; the caller component passes
through. -/
def luStepTracked (st : Matrix F64 × (Matrix F64 × List Nat)) (i : Nat) :
    Except Fail (Matrix F64 × (Matrix F64 × List Nat)) := do
  let caller := st.1
  let a := st.2.1
  let pivots := st.2.2
  let mp ← (List.range' i (a.rows - i)).foldlM (fun (mp : F64 × Nat) j => do
      let v ← a.ix (j, i)
      let abs_pivot := F64.fabs v
      return if F64.fgt abs_pivot mp.1 then (abs_pivot, j) else mp)
    (F64.zero, 0)
  if F64.feqZero mp.1 then throw (.err "Matrix is singular")
  else do
    let pivots' ← vecSet pivots i mp.2
    let a' ← a.swap_rows i mp.2
    let a'' ← (List.range' (i + 1) (a'.rows - (i + 1))).foldlM (fun a j => do
        let x ← a.ix (j, i)
        let y ← a.ix (i, i)
        let factor := F64.fdiv x y
        let a ← a.set j i factor
        (List.range' (i + 1) (a.cols - (i + 1))).foldlM (fun a k => do
            let u ← a.ix (j, k)
            let w ← a.ix (i, k)
            a.set j k (F64.fsub u (F64.fmul factor w))) a) a'
    return (caller, (a'', pivots'))

theorem luStepTracked_eq (c : Matrix F64) (s : Matrix F64 × List Nat) (i : Nat) :
    luStepTracked (c, s) i = keepL c (Matrix.luStep s i) := by
  obtain ⟨a, pivots⟩ := s
  unfold luStepTracked Matrix.luStep
  dsimp only
  cases hmp : (List.range' i (a.rows - i)).foldlM (fun (mp : F64 × Nat) j => do
      let v ← a.ix (j, i)
      let abs_pivot := F64.fabs v
      return if F64.fgt abs_pivot mp.1 then (abs_pivot, j) else mp)
    ((F64.zero, 0) : F64 × Nat) with
  | error e => rw [error_bind, error_bind]; rfl
  | ok mp =>
    rw [ok_bind, ok_bind]
    by_cases hz : F64.feqZero mp.1 = true
    · rw [if_pos hz, if_pos hz]; rfl
    · rw [if_neg hz, if_neg hz]
      cases hpv : vecSet pivots i mp.2 with
      | error e => rw [error_bind, error_bind]; rfl
      | ok pivots' =>
        rw [ok_bind, ok_bind]
        cases hsw : a.swap_rows i mp.2 with
        | error e => rw [error_bind, error_bind]; rfl
        | ok a' =>
          rw [ok_bind, ok_bind]
          cases helim : (List.range' (i + 1) (a'.rows - (i + 1))).foldlM
              (fun (a : Matrix F64) (j : Nat) => do
                let x ← a.ix (j, i)
                let y ← a.ix (i, i)
                let factor := F64.fdiv x y
                let a ← a.set j i factor
                (List.range' (i + 1) (a.cols - (i + 1))).foldlM
                  (fun (a : Matrix F64) (k : Nat) => do
                    let u ← a.ix (j, k)
                    let w ← a.ix (i, k)
                    a.set j k (F64.fsub u (F64.fmul factor w))) a) a' with
          | error e => rw [error_bind, error_bind]; rfl
          | ok a'' => rw [ok_bind, ok_bind]; rfl

/-- `lu_decomposition` with the caller's matrix threaded through the loop. -/
def lu_decomposition_tracked (mat : Matrix F64) :
    Except Fail ((Matrix F64 × List Nat) × Matrix F64) := do
  let st ← (List.range mat.rows).foldlM luStepTracked
    (mat, (mat, List.replicate mat.rows 0))
  return (st.2, st.1)

theorem lu_decomposition_tracked_eq (mat : Matrix F64) :
    lu_decomposition_tracked mat = withCaller mat (Matrix.lu_decomposition mat) := by
  unfold lu_decomposition_tracked Matrix.lu_decomposition
  rw [foldlM_keepL Matrix.luStep luStepTracked (fun c s x => luStepTracked_eq c s x)]
  cases h : (List.range mat.rows).foldlM Matrix.luStep (mat, List.replicate mat.rows 0) with
  | ok st => rfl
  | error e => rfl

/-- One forward-substitution step over `(caller's b, x)`: writes target only
the owned operand `x`. -/
def fwdStepTracked (pivots : List Nat) (st : Matrix F64 × Matrix F64) (i : Nat) :
    Except Fail (Matrix F64 × Matrix F64) := do
  let caller := st.1
  let x := st.2
  let pi ← vecGet pivots i
  let sum ← (List.range i).foldlM (fun sum j => do
    let u ← x.ix (pi, j)
    let v ← x.ix (j, i)
    return F64.fadd sum (F64.fmul u v)) F64.zero
  let w ← x.ix (pi, i)
  let x' ← x.set pi i (F64.fsub w sum)
  return (caller, x')

/-- One backward-substitution step over `(caller's b, x)`. -/
def bwdStepTracked (rows : Nat) (pivots : List Nat) (st : Matrix F64 × Matrix F64)
    (i : Nat) : Except Fail (Matrix F64 × Matrix F64) := do
  let caller := st.1
  let x := st.2
  let pi ← vecGet pivots i
  let sum ← (List.range' (i + 1) (rows - (i + 1))).foldlM (fun sum j => do
    let u ← x.ix (pi, j)
    let v ← x.ix (j, i)
    return F64.fadd sum (F64.fmul u v)) F64.zero
  let w ← x.ix (pi, i)
  let d ← x.ix (i, i)
  let x' ← x.set pi i (F64.fdiv (F64.fsub w sum) d)
  return (caller, x')

/-- `back_substitution` with the caller's `b` threaded (`solve` passes
`b.clone()`, so the algorithm's operand `x` starts as an independent copy of
the still-caller-owned `b`). -/
def back_substitution_tracked (self : Matrix F64) (pivots : List Nat) (b : Matrix F64) :
    Except Fail (Matrix F64 × Matrix F64) := do
  let st1 ← (List.range self.rows).foldlM (fwdStepTracked pivots) (b, b)
  let st2 ← (List.range self.rows).reverse.foldlM (bwdStepTracked self.rows pivots) st1
  return (st2.2, st2.1)

theorem fwdStepTracked_eq (pivots : List Nat) (c x : Matrix F64) (i : Nat) :
    fwdStepTracked pivots (c, x) i = keepL c (do
      let pi ← vecGet pivots i
      let sum ← (List.range i).foldlM (fun sum j => do
        let u ← x.ix (pi, j)
        let v ← x.ix (j, i)
        return F64.fadd sum (F64.fmul u v)) F64.zero
      let w ← x.ix (pi, i)
      x.set pi i (F64.fsub w sum)) := by
  unfold fwdStepTracked
  dsimp only
  cases hp : vecGet pivots i with
  | error e => rw [error_bind, error_bind]; rfl
  | ok pi =>
    rw [ok_bind, ok_bind]
    cases hs : (List.range i).foldlM (fun (sum : F64) (j : Nat) => do
        let u ← x.ix (pi, j)
        let v ← x.ix (j, i)
        return F64.fadd sum (F64.fmul u v)) F64.zero with
    | error e => rw [error_bind, error_bind]; rfl
    | ok sum =>
      rw [ok_bind, ok_bind]
      cases hw : x.ix (pi, i) with
      | error e => rw [error_bind, error_bind]; rfl
      | ok w =>
        rw [ok_bind, ok_bind]
        cases hset : x.set pi i (F64.fsub w sum) with
        | error e => rw [error_bind]; rfl
        | ok x' => rw [ok_bind]; rfl

theorem bwdStepTracked_eq (rows : Nat) (pivots : List Nat) (c x : Matrix F64) (i : Nat) :
    bwdStepTracked rows pivots (c, x) i = keepL c (do
      let pi ← vecGet pivots i
      let sum ← (List.range' (i + 1) (rows - (i + 1))).foldlM (fun sum j => do
        let u ← x.ix (pi, j)
        let v ← x.ix (j, i)
        return F64.fadd sum (F64.fmul u v)) F64.zero
      let w ← x.ix (pi, i)
      let d ← x.ix (i, i)
      x.set pi i (F64.fdiv (F64.fsub w sum) d)) := by
  unfold bwdStepTracked
  dsimp only
  cases hp : vecGet pivots i with
  | error e => rw [error_bind, error_bind]; rfl
  | ok pi =>
    rw [ok_bind, ok_bind]
    cases hs : (List.range' (i + 1) (rows - (i + 1))).foldlM (fun (sum : F64) (j : Nat) => do
        let u ← x.ix (pi, j)
        let v ← x.ix (j, i)
        return F64.fadd sum (F64.fmul u v)) F64.zero with
    | error e => rw [error_bind, error_bind]; rfl
    | ok sum =>
      rw [ok_bind, ok_bind]
      cases hw : x.ix (pi, i) with
      | error e => rw [error_bind, error_bind]; rfl
      | ok w =>
        rw [ok_bind, ok_bind]
        cases hd : x.ix (i, i) with
        | error e => rw [error_bind, error_bind]; rfl
        | ok d =>
          rw [ok_bind, ok_bind]
          cases hset : x.set pi i (F64.fdiv (F64.fsub w sum) d) with
          | error e => rw [error_bind]; rfl
          | ok x' => rw [ok_bind]; rfl

theorem back_substitution_tracked_eq (self : Matrix F64) (pivots : List Nat)
    (b : Matrix F64) :
    back_substitution_tracked self pivots b
      = withCaller b (Matrix.back_substitution self pivots b) := by
  unfold back_substitution_tracked Matrix.back_substitution
  dsimp only
  rw [foldlM_keepL _ (fwdStepTracked pivots) (fun c s x => fwdStepTracked_eq pivots c s x)]
  cases h1 : (List.range self.rows).foldlM (fun (x : Matrix F64) (i : Nat) => do
      let pi ← vecGet pivots i
      let sum ← (List.range i).foldlM (fun (sum : F64) (j : Nat) => do
        let u ← x.ix (pi, j)
        let v ← x.ix (j, i)
        return F64.fadd sum (F64.fmul u v)) F64.zero
      let w ← x.ix (pi, i)
      x.set pi i (F64.fsub w sum)) b with
  | error e =>
    rw [show keepL b (Except.error e : Except Fail (Matrix F64)) = .error e from rfl,
      error_bind, error_bind]
    rfl
  | ok x1 =>
    rw [show keepL b (Except.ok x1) = .ok (b, x1) from rfl, ok_bind, ok_bind]
    rw [foldlM_keepL _ (bwdStepTracked self.rows pivots)
      (fun c s x => bwdStepTracked_eq self.rows pivots c s x)]
    cases h2 : (List.range self.rows).reverse.foldlM (fun (x : Matrix F64) (i : Nat) => do
        let pi ← vecGet pivots i
        let sum ← (List.range' (i + 1) (self.rows - (i + 1))).foldlM
          (fun (sum : F64) (j : Nat) => do
            let u ← x.ix (pi, j)
            let v ← x.ix (j, i)
            return F64.fadd sum (F64.fmul u v)) F64.zero
        let w ← x.ix (pi, i)
        let d ← x.ix (i, i)
        x.set pi i (F64.fdiv (F64.fsub w sum) d)) x1 with
    | error e => rfl
    | ok x2 => rfl

/-- `determinant` with the caller's matrix threaded: it only reads the
factored copy produced by the tracked decomposition. -/
def determinant_tracked (self : Matrix F64) : Except Fail (F64 × Matrix F64) :=
  if self.rows ≠ self.cols then .error (.err "Matrix is not square")
  else do
    let lup ← lu_decomposition_tracked self
    let det ← (List.range self.rows).foldlM (fun det i => do
      let d ← lup.1.1.ix (i, i)
      let p ← vecGet lup.1.2 i
      let det := F64.fmul det d
      return if p ≠ i then F64.fmul det (F64.fromInt (-1)) else det)
      (F64.fromInt 1)
    return (det, lup.2)

theorem determinant_tracked_eq (self : Matrix F64) :
    determinant_tracked self = withCaller self (Matrix.determinant self) := by
  unfold determinant_tracked Matrix.determinant
  split
  · rfl
  rw [lu_decomposition_tracked_eq]
  cases h : Matrix.lu_decomposition self with
  | error e =>
    rw [show withCaller self (Except.error e : Except Fail (Matrix F64 × List Nat))
      = .error e from rfl, error_bind, error_bind]
    rfl
  | ok lup =>
    rw [show withCaller self (Except.ok lup) = .ok (lup, self) from rfl, ok_bind, ok_bind]
    dsimp only
    cases hdet : (List.range self.rows).foldlM (fun (det : F64) (i : Nat) => do
        let d ← lup.1.ix (i, i)
        let p ← vecGet lup.2 i
        let det := F64.fmul det d
        return if p ≠ i then F64.fmul det (F64.fromInt (-1)) else det)
        (F64.fromInt 1) with
    | error e => rw [error_bind]; rfl
    | ok det => rw [ok_bind]; rfl

/-- `inverse` with the caller's matrix threaded: the substitution operand is
the freshly built identity, not caller data. -/
def inverse_tracked (self : Matrix F64) : Except Fail (Matrix F64 × Matrix F64) :=
  if self.rows ≠ self.cols then .error (.err "Matrix is not square")
  else do
    let lup ← lu_decomposition_tracked self
    let idm ← Matrix.identity self.rows
    let x ← Matrix.back_substitution lup.1.1 lup.1.2 idm
    return (x, lup.2)

theorem inverse_tracked_eq (self : Matrix F64) :
    inverse_tracked self = withCaller self (Matrix.inverse self) := by
  unfold inverse_tracked Matrix.inverse
  split
  · rfl
  rw [lu_decomposition_tracked_eq]
  cases h : Matrix.lu_decomposition self with
  | error e =>
    rw [show withCaller self (Except.error e : Except Fail (Matrix F64 × List Nat))
      = .error e from rfl, error_bind, error_bind]
    rfl
  | ok lup =>
    rw [show withCaller self (Except.ok lup) = .ok (lup, self) from rfl, ok_bind, ok_bind]
    dsimp only
    cases hid : Matrix.identity self.rows with
    | error e => rw [error_bind, error_bind]; rfl
    | ok idm =>
      rw [ok_bind, ok_bind]
      cases hbs : Matrix.back_substitution lup.1 lup.2 idm with
      | error e => rw [error_bind]; rfl
      | ok x => rw [ok_bind]; rfl

/-- `solve` with both caller matrices threaded: `self` through the tracked
decomposition, `b` cloned into the tracked substitution. -/
def solve_tracked (self b : Matrix F64) :
    Except Fail (Matrix F64 × (Matrix F64 × Matrix F64)) :=
  if self.rows ≠ self.cols ∨ b.rows ≠ self.rows ∨ b.cols ≠ 1 then
    .error (.err "Matrix dimensions do not match")
  else do
    let lup ← lu_decomposition_tracked self
    let xb ← back_substitution_tracked lup.1.1 lup.1.2 b
    return (xb.1, (lup.2, xb.2))

theorem solve_tracked_eq (self b : Matrix F64) :
    solve_tracked self b = withCaller (self, b) (Matrix.solve self b) := by
  unfold solve_tracked Matrix.solve
  split
  · rfl
  rw [lu_decomposition_tracked_eq]
  cases h : Matrix.lu_decomposition self with
  | error e =>
    rw [show withCaller self (Except.error e : Except Fail (Matrix F64 × List Nat))
      = .error e from rfl, error_bind, error_bind]
    rfl
  | ok lup =>
    rw [show withCaller self (Except.ok lup) = .ok (lup, self) from rfl, ok_bind, ok_bind]
    dsimp only
    rw [back_substitution_tracked_eq]
    cases hbs : Matrix.back_substitution lup.1 lup.2 b with
    | error e => rfl
    | ok x => rfl

/-- **C9** (confirmed). In the caller-tracking translations — where the
caller-supplied matrices are explicit state components threaded through the
very same loop structure as the source, and every source write targets the
cloned working copy or a local — each of `lu_decomposition`, `determinant`,
`inverse` and `solve` returns the caller's matrices exactly as supplied
(the `withCaller` equations: same success value or same error as the plain
operation, with the caller components passed through unchanged, on success
and failure alike). -/
theorem operations_leave_callers_unchanged :
    (∀ mat, lu_decomposition_tracked mat = withCaller mat (Matrix.lu_decomposition mat)) ∧
    (∀ self pivots b, back_substitution_tracked self pivots b
      = withCaller b (Matrix.back_substitution self pivots b)) ∧
    (∀ self, determinant_tracked self = withCaller self (Matrix.determinant self)) ∧
    (∀ self, inverse_tracked self = withCaller self (Matrix.inverse self)) ∧
    (∀ self b, solve_tracked self b = withCaller (self, b) (Matrix.solve self b)) :=
  ⟨lu_decomposition_tracked_eq, back_substitution_tracked_eq, determinant_tracked_eq,
    inverse_tracked_eq, solve_tracked_eq⟩

/-! ### Concrete matrices used by the claims -/

/-- The 2×2 matrix `[[1,2],[3,4]]` of the spec's scenarios 3 and 5. -/
def m2x2 : Matrix F64 :=
  ⟨[F64.fromInt 1, F64.fromInt 2, F64.fromInt 3, F64.fromInt 4], 2, 2⟩

/-- The right-hand side `[[5],[6]]` of scenario 5. -/
def b2x1 : Matrix F64 := ⟨[F64.fromInt 5, F64.fromInt 6], 2, 1⟩

/-- A non-square 2×3 matrix `[[1,2,3],[4,5,6]]`. -/
def m2x3 : Matrix F64 :=
  ⟨[F64.fromInt 1, F64.fromInt 2, F64.fromInt 3,
    F64.fromInt 4, F64.fromInt 5, F64.fromInt 6], 2, 3⟩

/-- The (mathematically singular) 3×3 matrix `[[1,2,3],[4,5,6],[7,8,9]]` of
scenario 4. -/
def m3x3 : Matrix F64 :=
  ⟨[F64.fromInt 1, F64.fromInt 2, F64.fromInt 3,
    F64.fromInt 4, F64.fromInt 5, F64.fromInt 6,
    F64.fromInt 7, F64.fromInt 8, F64.fromInt 9], 3, 3⟩

/-- A well-shaped right-hand side `[[10],[11],[12]]` for the 3×3 matrix. -/
def b3x1 : Matrix F64 := ⟨[F64.fromInt 10, F64.fromInt 11, F64.fromInt 12], 3, 1⟩

/-- The spec's expected value of `inverse([[1,2],[3,4]])`:
`[[-2,1],[1.5,-0.5]]` (all entries exactly representable). -/
def expectedInv2x2 : Matrix F64 :=
  ⟨[F64.fromInt (-2), F64.fromInt 1,
    F64.fdiv (F64.fromInt 3) (F64.fromInt 2),
    F64.fdiv (F64.fromInt (-1)) (F64.fromInt 2)], 2, 2⟩

/-- The 2×2 identity matrix value. -/
def id2x2 : Matrix F64 :=
  ⟨[F64.fromInt 1, F64.zero, F64.zero, F64.fromInt 1], 2, 2⟩

/-- The 3×3 identity matrix value. -/
def id3x3 : Matrix F64 :=
  ⟨[F64.fromInt 1, F64.zero, F64.zero,
    F64.zero, F64.fromInt 1, F64.zero,
    F64.zero, F64.zero, F64.fromInt 1], 3, 3⟩

/-- `3 * 2^(-52)` — the dyadic `6.661338147750939e-16`, the exact IEEE-754
value of `determinant([[1,2,3],[4,5,6],[7,8,9]])`. -/
def detResidue : F64 := ⟨6755399441055744, -103⟩

/-- The exact binary64 LU factorization of `[[1,2],[3,4]]`:
`[[3,4],[fl(1/3), fl(2 - fl(1/3)*4)]]`. -/
def lu2x2val : Matrix F64 :=
  ⟨[⟨6755399441055744, -51⟩, ⟨4503599627370496, -50⟩,
    ⟨6004799503160661, -54⟩, ⟨6004799503160662, -53⟩], 2, 2⟩

/-! ### Claim theorems -/

/-- **C1** (code_bug). `solve([[1,2],[3,4]], [[5],[6]])` — a perfectly
well-shaped call that the code's own `test_solve` expects to return
`Ok([[-7],[2.5]])` — panics: in `back_substitution`'s forward loop at `i = 1`
the unchecked read `x[(pivots[1], 1)]` computes flat offset
`1 * x.cols + 1 = 2` into the 2-entry buffer of the 2×1 right-hand side, an
out-of-range `Vec` access.  So public calls can panic, contradicting the
claim that every call returns either a success or a documented error. -/
theorem solve_2x2_panics : Matrix.solve m2x2 b2x1 = .error .abort := by decide

/-- **C2** (code_bug). `inverse([[1,2],[3,4]])` returns the *identity*
matrix, not `[[-2,1],[1.5,-0.5]]` as the spec and the code's own
`test_inverse` expect: `back_substitution` never reads the factored matrix
(only `self.rows`), so "solving" `A·X = I` just rescales `I` by its own unit
diagonal.  Every arithmetic operation involved is exact in binary64 (the
operands are 0 and 1), so this is the bit-exact IEEE result. -/
theorem inverse_2x2_is_identity :
    Matrix.inverse m2x2 = .ok id2x2 ∧ Matrix.inverse m2x2 ≠ .ok expectedInv2x2 := by
  constructor
  · decide
  · decide

/-- **C3 counterexample**. `solve` on a non-square matrix returns the single
shape error `"Matrix dimensions do not match"` (the `DimensionMismatch`
message), not the `NotSquare` message `"Matrix is not square"` used by
`determinant`/`inverse`: the two failure kinds are not distinguishable from
`solve`'s result. -/
theorem solve_nonsquare_is_dimension_mismatch :
    Matrix.solve m2x3 b2x1 = .error (.err "Matrix dimensions do not match") ∧
      Fail.err "Matrix dimensions do not match" ≠ Fail.err "Matrix is not square" := by
  constructor
  · decide
  · decide

/-- **C3** (corrected). `solve` performs one combined shape test: whenever
`self` is not square, or `b.rows ≠ self.rows`, or `b.cols ≠ 1`, it fails with
the same `DimensionMismatch` error `"Matrix dimensions do not match"`; it
never produces the `NotSquare` kind. -/
theorem solve_shape_failure_single_kind (A b : Matrix F64)
    (h : A.rows ≠ A.cols ∨ b.rows ≠ A.rows ∨ b.cols ≠ 1) :
    Matrix.solve A b = .error (.err "Matrix dimensions do not match") := by
  unfold Matrix.solve
  rw [if_pos h]

/-- Witness for C3's theorem at the concrete non-square input. -/
theorem solve_shape_failure_single_kind_witness :
    (m2x3.rows ≠ m2x3.cols ∨ b2x1.rows ≠ m2x3.rows ∨ b2x1.cols ≠ 1) ∧
      Matrix.solve m2x3 b2x1 = .error (.err "Matrix dimensions do not match") :=
  ⟨by decide, solve_shape_failure_single_kind m2x3 b2x1 (by decide)⟩

/-- **C4** (code_bug). On `[[1,2,3],[4,5,6],[7,8,9]]` the elimination's
third pivot is not an exact zero in binary64 (it is the rounding residue
`2^(-53)`), so `lu_decomposition` does *not* fail: `determinant` returns the
residue `3 * 2^(-52) ≈ 6.66e-16` — not `0.0` as the claim and the code's own
`test_determinant` assert; `inverse` succeeds (returning the identity, cf.
C2) instead of failing with `Singular` as `test_inverse` asserts; and
`solve` panics on the out-of-range access of C1 instead of failing with
`Singular` as `test_solve` asserts. -/
theorem singular_3x3_behaviour :
    Matrix.determinant m3x3 = .ok detResidue ∧
      Matrix.determinant m3x3 ≠ .ok F64.zero ∧
      Matrix.determinant m3x3 ≠ .error (.err "Matrix is singular") ∧
      Matrix.inverse m3x3 = .ok id3x3 ∧
      Matrix.solve m3x3 b3x1 = .error .abort ∧
      F64.val detResidue = 3 / 2 ^ 52 := by
  refine ⟨by decide, by decide, by decide, by decide, by decide, ?_⟩
  show ((6755399441055744 : Int) : ℚ) * (2 : ℚ) ^ (-103 : Int) = 3 / 2 ^ 52
  rw [show ((6755399441055744 : Int) : ℚ) = 3 * 2 ^ (51 : Nat) by norm_num]
  rw [← zpow_natCast (2:ℚ) 51, mul_assoc, ← zpow_add₀ (by norm_num : (2:ℚ) ≠ 0)]
  norm_num

/-- **C6** (code_bug). `identity(0)` does not fail with `ZeroDimension`: it
builds an empty buffer and hands it to `from_data(0, 0, [])`, whose length
check `0 = 0 * 0` passes, so it returns `Ok` with a 0×0 matrix — contradicting
the claim and the function's own doc comment ("or an error if the size is
zero"). -/
theorem identity_zero_succeeds : Matrix.identity 0 = .ok ⟨[], 0, 0⟩ := by decide

/-- **C7 counterexample**. A matrix with `rows = 0` is obtainable from the
public interface: `from_data(0, 0, [])` only checks the length equation
`0 = 0 * 0` and succeeds, so the invariant `rows ≥ 1 ∧ cols ≥ 1` does not
hold for every publicly obtainable instance. -/
theorem from_data_zero_dims_ok :
    Matrix.from_data 0 0 ([] : List F64) = .ok ⟨[], 0, 0⟩ ∧
      (⟨[], 0, 0⟩ : Matrix F64).rows = 0 := by
  constructor
  · decide
  · rfl

/-- **C7** (corrected). What does hold for every matrix-producing public
operation is the length invariant `len(data) = rows * cols` (given
well-sized inputs where the result buffer derives from an input buffer);
positivity of the dimensions is guaranteed by `new` but not by `from_data`
or `identity`, which accept zero dimensions. -/
theorem public_results_size_invariant :
    (∀ r c m, Matrix.new r c = .ok m → sizeOk m ∧ 0 < m.rows ∧ 0 < m.cols) ∧
    (∀ (r c : Nat) (d : List F64) m, Matrix.from_data r c d = .ok m → sizeOk m) ∧
    (∀ n m, Matrix.identity n = .ok m → sizeOk m) ∧
    (∀ (m : Matrix F64) r c v m', sizeOk m → m.set r c v = .ok m' → sizeOk m') ∧
    (∀ self m, Matrix.transpose self = .ok m → sizeOk m) ∧
    (∀ a b m, Matrix.add a b = .ok m → sizeOk m) ∧
    (∀ a b m, Matrix.sub a b = .ok m → sizeOk m) ∧
    (∀ a b m, Matrix.mul a b = .ok m → sizeOk m) ∧
    (∀ mat A p, sizeOk mat → Matrix.lu_decomposition mat = .ok (A, p) → sizeOk A) ∧
    (∀ L p b x, sizeOk b → Matrix.back_substitution L p b = .ok x → sizeOk x) ∧
    (∀ self m, Matrix.inverse self = .ok m → sizeOk m) ∧
    (∀ self b x, sizeOk b → Matrix.solve self b = .ok x → sizeOk x) := by
  refine ⟨fun r c m h => Matrix.new_shape h,
    fun r c d m h => (Matrix.from_data_shape h).1,
    fun n m h => (Matrix.identity_sizeOk h).1,
    fun m r c v m' hm h => ?_,
    fun self m h => Matrix.transpose_sizeOk h,
    fun a b m h => Matrix.add_sizeOk h,
    fun a b m h => Matrix.sub_sizeOk h,
    fun a b m h => Matrix.mul_sizeOk h,
    fun mat A p hm h => Matrix.lu_sizeOk hm h,
    fun L p b x hb h => Matrix.back_substitution_sizeOk hb h,
    fun self m h => Matrix.inverse_sizeOk h,
    fun self b x hb h => Matrix.solve_sizeOk hb h⟩
  obtain ⟨e1, e2, e3⟩ := Matrix.set_shape h
  unfold sizeOk
  rw [e1, e2, e3, hm]

/-- Witness for C7's theorem: the `from_data` conjunct applied at a concrete
construction. -/
theorem public_results_size_invariant_witness :
    (Matrix.from_data 2 2 [F64.fromInt 1, F64.fromInt 2, F64.fromInt 3, F64.fromInt 4]
        = .ok m2x2) ∧ sizeOk m2x2 :=
  ⟨by decide, public_results_size_invariant.2.1 2 2
    [F64.fromInt 1, F64.fromInt 2, F64.fromInt 3, F64.fromInt 4] m2x2 (by decide)⟩

/-- **C10** (confirmed). `back_substitution` reads `self` only through
`self.rows` (every substituted value comes from `x`, i.e. from `b`, and from
`pivots`), so two factored matrices with equal row counts produce identical
outcomes on every pivot list and right-hand side. -/
theorem back_substitution_ignores_factored_entries
    (L1 L2 : Matrix F64) (p : List Nat) (b : Matrix F64) (h : L1.rows = L2.rows) :
    Matrix.back_substitution L1 p b = Matrix.back_substitution L2 p b := by
  unfold Matrix.back_substitution
  rw [h]

/-- Witness for C5's theorem at the concrete 2×2 input: decomposition
succeeds and the returned pair is the reference algorithm's. -/
theorem lu_decomposition_matches_reference_witness :
    (sizeOk m2x2 ∧ m2x2.rows = m2x2.cols ∧
      Matrix.lu_decomposition m2x2 = .ok (lu2x2val, [1, 1])) ∧
      ((lu2x2val, ([1, 1] : List Nat)) = refLU m2x2 ∧
        ([1, 1] : List Nat).length = m2x2.rows) :=
  ⟨⟨by decide, rfl, by decide⟩,
    lu_decomposition_matches_reference (by decide) rfl (by decide)⟩

/-- Witness for C10 at two concrete equal-row-count matrices with entirely
different entries. -/
theorem back_substitution_ignores_factored_entries_witness :
    (m2x2.rows = m2x3.rows) ∧
      Matrix.back_substitution m2x2 [1, 1] b2x1
        = Matrix.back_substitution m2x3 [1, 1] b2x1 :=
  ⟨rfl, back_substitution_ignores_factored_entries m2x2 m2x3 [1, 1] b2x1 rfl⟩

end RsMatrix
